import Mathlib

/-!
Verification of the Connect-4 engine: board logic (game_logic.py), heuristic and
terminal AI (ai_terminal.py), instrumented searches (connect4_evaluation.py) and
the move-returning GUI search (pygame_gui.py), shallowly embedded in Lean.

Scores in the Python sources are floats that are either exact integers (sums of
window scores) or the sentinels float('-inf') / float('inf').  They are modelled
by the three-constructor type F below with the evident linear order; no other
float behaviour is exercised by the code.
-/

inductive F where
  | negInf : F
  | val : Int → F
  | posInf : F
deriving DecidableEq, Repr

namespace F

def ble : F → F → Bool
  | negInf, _ => true
  | _, posInf => true
  | val a, val b => decide (a ≤ b)
  | posInf, _ => false
  | val _, negInf => false

theorem ble_refl (a : F) : ble a a = true := by
  cases a <;> simp [ble]

theorem ble_trans {a b c : F} (h1 : ble a b = true) (h2 : ble b c = true) :
    ble a c = true := by
  cases a <;> cases b <;> cases c <;> simp_all [ble] <;> omega

theorem ble_antisymm {a b : F} (h1 : ble a b = true) (h2 : ble b a = true) :
    a = b := by
  cases a <;> cases b <;> simp_all [ble] <;> omega

theorem ble_total (a b : F) : ble a b = true ∨ ble b a = true := by
  cases a <;> cases b <;> simp [ble] <;> omega

instance : LE F := ⟨fun a b => ble a b = true⟩

instance : LT F := ⟨fun a b => ble b a = false⟩

theorem le_iff_ble {a b : F} : a ≤ b ↔ ble a b = true := Iff.rfl

theorem lt_iff_ble {a b : F} : a < b ↔ ble b a = false := Iff.rfl

instance decLE : ∀ a b : F, Decidable (a ≤ b) := fun _ _ => instDecidableEqBool _ _

instance decLT : ∀ a b : F, Decidable (a < b) := fun _ _ => instDecidableEqBool _ _

instance : LinearOrder F where
  le := (· ≤ ·)
  lt := (· < ·)
  le_refl := ble_refl
  le_trans := fun _ _ _ => ble_trans
  le_antisymm := fun _ _ => ble_antisymm
  le_total := ble_total
  lt_iff_le_not_le := by
    intro a b
    rcases ble_total a b with h | h <;>
      cases hba : ble b a <;>
        simp_all [le_iff_ble, lt_iff_ble]
  decidableLE := fun a b => instDecidableEqBool _ _

theorem negInf_le (a : F) : negInf ≤ a := by
  show ble negInf a = true
  simp [ble]

theorem le_posInf (a : F) : a ≤ posInf := by
  show ble a posInf = true
  cases a <;> simp [ble]

@[simp] theorem val_le_val {a b : Int} : (val a ≤ val b) ↔ a ≤ b := by
  show ble (val a) (val b) = true ↔ a ≤ b
  simp [ble]

@[simp] theorem not_val_le_negInf (a : Int) : ¬ (val a ≤ negInf) := by
  show ¬ ble (val a) negInf = true
  simp [ble]

@[simp] theorem not_posInf_le_val (a : Int) : ¬ (posInf ≤ val a) := by
  show ¬ ble posInf (val a) = true
  simp [ble]

@[simp] theorem not_posInf_le_negInf : ¬ ((posInf : F) ≤ negInf) := by
  show ¬ ble posInf negInf = true
  simp [ble]

/-- A score is finite when it is an integer, not one of the infinities. -/
def IsVal : F → Prop
  | val _ => True
  | _ => False

theorem isVal_iff {x : F} : IsVal x ↔ ∃ n, x = val n := by
  cases x <;> simp [IsVal]

theorem IsVal.ne_top {x : F} (h : IsVal x) : x ≠ posInf := by
  cases x <;> simp_all [IsVal]

theorem IsVal.ne_bot {x : F} (h : IsVal x) : x ≠ negInf := by
  cases x <;> simp_all [IsVal]

theorem isVal_max {a b : F} (ha : IsVal a) (hb : IsVal b) : IsVal (max a b) := by
  rcases max_choice a b with h | h <;> rw [h] <;> assumption

theorem isVal_min {a b : F} (ha : IsVal a) (hb : IsVal b) : IsVal (min a b) := by
  rcases min_choice a b with h | h <;> rw [h] <;> assumption

theorem not_le_negInf_of_isVal {x : F} (h : IsVal x) : ¬ x ≤ negInf := by
  cases x <;> simp_all [IsVal]

theorem not_posInf_le_of_isVal {x : F} (h : IsVal x) : ¬ posInf ≤ x := by
  cases x <;> simp_all [IsVal]

end F

/-!
Board model (game_logic.py).  A board is a total function from (row, column) to
cell values: 0 = empty, 1 = PlayerOne, 2 = PlayerTwo.  Row 0 is the top row,
row ROWS - 1 the bottom row, exactly as in the numpy array of the source.
Python mutates arrays in place but every search call works on board.copy();
value semantics of Lean functions models that copy discipline.
-/

def ROWS : Nat := 6

def COLS : Nat := 7

def Board : Type := Nat → Nat → Nat

/-- A concrete board from a row-major list of rows (out-of-range cells read 0). -/
def boardOfList (L : List (List Nat)) : Board :=
  fun r c => (L.getD r []).getD c 0

/-- The all-empty board of create_board. -/
def create_board : Board := fun _ _ => 0

/-- is_valid_location: the column index is in range and the top cell is empty.
Column indices are natural numbers, so the Python col < 0 test is vacuous. -/
def is_valid_location (b : Board) (c : Nat) : Bool :=
  decide (c < COLS) && (b 0 c == 0)

/-- Helper for get_next_open_row: scan rows n-1, n-2, ..., 0 in that order
(the Python loop range(ROWS-1, -1, -1)) for the first empty cell. -/
def scanRow (b : Board) (c : Nat) : Nat → Option Nat
  | 0 => none
  | r + 1 => if b r c = 0 then some r else scanRow b c r

/-- get_next_open_row: lowest empty row of a column; the Python function falls
through and implicitly returns None when the column is full. -/
def get_next_open_row (b : Board) (c : Nat) : Option Nat :=
  scanRow b c ROWS

/-- drop_piece: write the player value at (row, col).  The source performs the
raw assignment with no validation of any kind. -/
def drop_piece (b : Board) (row col p : Nat) : Board :=
  fun r c => if r = row ∧ c = col then p else b r c

/-- check_win: the four scan loops of the source.  The negative-diagonal loop
of the source runs r over range(3, ROWS) and reads board[r-i, c+i]. -/
def check_win (b : Board) (p : Nat) : Bool :=
  ((List.range ROWS).any fun r => (List.range (COLS - 3)).any fun c =>
      (List.range 4).all fun i => b r (c + i) == p)
  || ((List.range (ROWS - 3)).any fun r => (List.range COLS).any fun c =>
      (List.range 4).all fun i => b (r + i) c == p)
  || ((List.range (ROWS - 3)).any fun r => (List.range (COLS - 3)).any fun c =>
      (List.range 4).all fun i => b (r + i) (c + i) == p)
  || ((List.range' 3 (ROWS - 3)).any fun r => (List.range (COLS - 3)).any fun c =>
      (List.range 4).all fun i => b (r - i) (c + i) == p)

/-- is_draw: every top-row cell is occupied. -/
def is_draw (b : Board) : Bool :=
  (List.range COLS).all fun c => !(b 0 c == 0)

/-- Terminal test used by every search:
check_win(board, 1) or check_win(board, 2) or is_draw(board). -/
def terminal (b : Board) : Bool :=
  check_win b 1 || check_win b 2 || is_draw b

/-- The successor board for one column: look up the landing row and drop.
When the column is full the landing row is None and the Python callers never
reach this point (they filter on is_valid_location first); the model returns
the unchanged board in that unreachable case. -/
def childAt (b : Board) (c : Nat) (p : Nat) : Board :=
  match get_next_open_row b c with
  | some r => drop_piece b r c p
  | none => b

/-- The legal columns in ascending order (shared by get_children and by the
valid_locations list of minimax_with_col). -/
def valid_cols (b : Board) : List Nat :=
  (List.range COLS).filter fun c => is_valid_location b c

/-- get_children: one successor board per legal column, ascending. -/
def get_children (b : Board) (p : Nat) : List Board :=
  (valid_cols b).map fun c => childAt b c p

/-!
Heuristic (ai_terminal.py; pygame_gui.py holds a verbatim copy of the same
score_window / heuristic pair, so one definition models both).
-/

/-- score_window on a 4-cell window. -/
def score_window (w : List Nat) (p : Nat) : Int :=
  let opponent := if p = 1 then 2 else 1
  let offense : Int :=
    if w.count p = 4 then 1000
    else if w.count p = 3 ∧ w.count 0 = 1 then 100
    else if w.count p = 2 ∧ w.count 0 = 2 then 10
    else 0
  let defense : Int :=
    if w.count opponent = 4 then -1500
    else if w.count opponent = 3 ∧ w.count 0 = 1 then -100
    else if w.count opponent = 2 ∧ w.count 0 = 2 then -10
    else 0
  offense + defense

/-- Sum of g over 0, 1, ..., n-1. -/
def sumOver (n : Nat) (g : Nat → Int) : Int :=
  ((List.range n).map g).sum

/-- heuristic: sum of score_window over every horizontal, vertical,
positive-diagonal and negative-diagonal 4-cell window.  The negative-diagonal
windows [board[r-i, c+i] for i in range(4)] with r in range(3, ROWS) are
enumerated here as r = r0 + 3 with r0 in range(ROWS - 3). -/
def heuristic (b : Board) (p : Nat) : Int :=
  sumOver ROWS (fun r => sumOver (COLS - 3) (fun c =>
      score_window [b r c, b r (c + 1), b r (c + 2), b r (c + 3)] p))
  + sumOver (ROWS - 3) (fun r => sumOver COLS (fun c =>
      score_window [b r c, b (r + 1) c, b (r + 2) c, b (r + 3) c] p))
  + sumOver (ROWS - 3) (fun r => sumOver (COLS - 3) (fun c =>
      score_window [b r c, b (r + 1) (c + 1), b (r + 2) (c + 2), b (r + 3) (c + 3)] p))
  + sumOver (ROWS - 3) (fun r => sumOver (COLS - 3) (fun c =>
      score_window [b (r + 3) c, b (r + 2) (c + 1), b (r + 1) (c + 2), b r (c + 3)] p))

/-!
Searches.  minimax_no_pruning and minimax_ab are the two functions of
connect4_evaluation.py; the minimax of ai_terminal.py is line-for-line the
value computation of minimax_ab (only the node counter is absent), so
minimax_ab models both.  The counter dictionary threaded through the Python
recursion is modelled by the separate counting functions npNodes and abNodes
below, which replay the identical traversal and add one per invocation.
-/

/-- Maximizing loop body shared by both searches:
value = -inf; for child: v = rec(child); if v > value: value = v. -/
def npFoldMax (f : Board → F) : List Board → F → F
  | [], value => value
  | c :: cs, value => npFoldMax f cs (if value < f c then f c else value)

/-- Minimizing loop body of the no-pruning search. -/
def npFoldMin (f : Board → F) : List Board → F → F
  | [], value => value
  | c :: cs, value => npFoldMin f cs (if f c < value then f c else value)

/-- minimax_no_pruning, value part.  Leaves (depth 0 or terminal boards)
return heuristic(board, 1). -/
def minimax_no_pruning : Board → Nat → Bool → F
  | b, 0, _ => F.val (heuristic b 1)
  | b, d + 1, maximizing =>
    if terminal b then F.val (heuristic b 1)
    else if maximizing then
      npFoldMax (fun c => minimax_no_pruning c d false) (get_children b 1) F.negInf
    else
      npFoldMin (fun c => minimax_no_pruning c d true) (get_children b 2) F.posInf

/-- Maximizing loop of minimax_ab: v = rec(child, alpha, beta);
if v > value: value = v; alpha = max(alpha, v); if beta <= alpha: break.
beta is fixed throughout a maximizing loop, so f only takes alpha. -/
def abFoldMax (f : Board → F → F) (beta : F) : List Board → F → F → F
  | [], value, _ => value
  | c :: cs, value, alpha =>
    let v : F := f c alpha
    let value' : F := if value < v then v else value
    let alpha' : F := max alpha v
    if beta ≤ alpha' then value' else abFoldMax f beta cs value' alpha'

/-- Minimizing loop of minimax_ab: beta = min(beta, v); break when beta <= alpha. -/
def abFoldMin (f : Board → F → F) (alpha : F) : List Board → F → F → F
  | [], value, _ => value
  | c :: cs, value, beta =>
    let v : F := f c beta
    let value' : F := if v < value then v else value
    let beta' : F := min beta v
    if beta' ≤ alpha then value' else abFoldMin f alpha cs value' beta'

/-- minimax_ab, value part (identical to minimax of ai_terminal.py). -/
def minimax_ab : Board → Nat → F → F → Bool → F
  | b, 0, _, _, _ => F.val (heuristic b 1)
  | b, d + 1, alpha, beta, maximizing =>
    if terminal b then F.val (heuristic b 1)
    else if maximizing then
      abFoldMax (fun c a => minimax_ab c d a beta false) beta (get_children b 1) F.negInf alpha
    else
      abFoldMin (fun c be => minimax_ab c d alpha be true) alpha (get_children b 2) F.posInf beta

/-- Node count of minimax_no_pruning: counter['nodes'] += 1 once per
invocation, every child of every internal node is visited. -/
def npNodes : Board → Nat → Bool → Nat
  | _, 0, _ => 1
  | b, d + 1, maximizing =>
    if terminal b then 1
    else if maximizing then
      1 + ((get_children b 1).map fun c => npNodes c d false).sum
    else
      1 + ((get_children b 2).map fun c => npNodes c d true).sum

/-- Nodes visited by the maximizing loop of minimax_ab: children up to and
including the one at which the loop breaks. -/
def abNodesFoldMax (f : Board → F → F) (g : Board → F → Nat) (beta : F) :
    List Board → F → F → Nat
  | [], _, _ => 0
  | c :: cs, value, alpha =>
    let v : F := f c alpha
    let value' : F := if value < v then v else value
    let alpha' : F := max alpha v
    if beta ≤ alpha' then g c alpha
    else g c alpha + abNodesFoldMax f g beta cs value' alpha'

/-- Nodes visited by the minimizing loop of minimax_ab. -/
def abNodesFoldMin (f : Board → F → F) (g : Board → F → Nat) (alpha : F) :
    List Board → F → F → Nat
  | [], _, _ => 0
  | c :: cs, value, beta =>
    let v : F := f c beta
    let value' : F := if v < value then v else value
    let beta' : F := min beta v
    if beta' ≤ alpha then g c beta
    else g c beta + abNodesFoldMin f g alpha cs value' beta'

/-- Node count of minimax_ab on the identical traversal. -/
def abNodes : Board → Nat → F → F → Bool → Nat
  | _, 0, _, _, _ => 1
  | b, d + 1, alpha, beta, maximizing =>
    if terminal b then 1
    else if maximizing then
      1 + abNodesFoldMax (fun c a => minimax_ab c d a beta false)
            (fun c a => abNodes c d a beta false) beta (get_children b 1) F.negInf alpha
    else
      1 + abNodesFoldMin (fun c be => minimax_ab c d alpha be true)
            (fun c be => abNodes c d alpha be true) alpha (get_children b 2) F.posInf beta

/-- Whether the maximizing loop of minimax_ab executes a break anywhere
(in this node or recursively in a visited child). -/
def abCutsFoldMax (f : Board → F → F) (g : Board → F → Bool) (beta : F) :
    List Board → F → F → Bool
  | [], _, _ => false
  | c :: cs, value, alpha =>
    let v : F := f c alpha
    let value' : F := if value < v then v else value
    let alpha' : F := max alpha v
    if beta ≤ alpha' then true
    else g c alpha || abCutsFoldMax f g beta cs value' alpha'

/-- Whether the minimizing loop of minimax_ab executes a break anywhere. -/
def abCutsFoldMin (f : Board → F → F) (g : Board → F → Bool) (alpha : F) :
    List Board → F → F → Bool
  | [], _, _ => false
  | c :: cs, value, beta =>
    let v : F := f c beta
    let value' : F := if v < value then v else value
    let beta' : F := min beta v
    if beta' ≤ alpha then true
    else g c beta || abCutsFoldMin f g alpha cs value' beta'

/-- Whether some branch of the minimax_ab walk triggers the beta <= alpha
break statement at all (even on the last child of its loop). -/
def abCuts : Board → Nat → F → F → Bool → Bool
  | _, 0, _, _, _ => false
  | b, d + 1, alpha, beta, maximizing =>
    if terminal b then false
    else if maximizing then
      abCutsFoldMax (fun c a => minimax_ab c d a beta false)
        (fun c a => abCuts c d a beta false) beta (get_children b 1) F.negInf alpha
    else
      abCutsFoldMin (fun c be => minimax_ab c d alpha be true)
        (fun c be => abCuts c d alpha be true) alpha (get_children b 2) F.posInf beta

/-- Whether the maximizing loop of minimax_ab breaks with unvisited children
remaining (in this node, or recursively in a visited child). -/
def abSkipsFoldMax (f : Board → F → F) (g : Board → F → Bool) (beta : F) :
    List Board → F → F → Bool
  | [], _, _ => false
  | c :: cs, value, alpha =>
    let v : F := f c alpha
    let value' : F := if value < v then v else value
    let alpha' : F := max alpha v
    if beta ≤ alpha' then g c alpha || !cs.isEmpty
    else g c alpha || abSkipsFoldMax f g beta cs value' alpha'

/-- Whether the minimizing loop of minimax_ab breaks with unvisited children
remaining. -/
def abSkipsFoldMin (f : Board → F → F) (g : Board → F → Bool) (alpha : F) :
    List Board → F → F → Bool
  | [], _, _ => false
  | c :: cs, value, beta =>
    let v : F := f c beta
    let value' : F := if v < value then v else value
    let beta' : F := min beta v
    if beta' ≤ alpha then g c beta || !cs.isEmpty
    else g c beta || abSkipsFoldMin f g alpha cs value' beta'

/-- Whether some break of the minimax_ab walk skips at least one child. -/
def abSkips : Board → Nat → F → F → Bool → Bool
  | _, 0, _, _, _ => false
  | b, d + 1, alpha, beta, maximizing =>
    if terminal b then false
    else if maximizing then
      abSkipsFoldMax (fun c a => minimax_ab c d a beta false)
        (fun c a => abSkips c d a beta false) beta (get_children b 1) F.negInf alpha
    else
      abSkipsFoldMin (fun c be => minimax_ab c d alpha be true)
        (fun c be => abSkips c d alpha be true) alpha (get_children b 2) F.posInf beta

/-!
Top-level move selection of play_game_vs_ai (ai_terminal.py): iterate columns
0..COLS-1, keep only legal ones, score each by
minimax(temp_board, depth - 1, -inf, inf, False) with a fresh full window, and
keep the column on a strictly greater score only.
-/

/-- Root score assigned to one column by the play_game_vs_ai loop. -/
def rootScore (b : Board) (depth : Nat) (c : Nat) : F :=
  minimax_ab (childAt b c 1) (depth - 1) F.negInf F.posInf false

/-- The root loop: best_score = -inf, best_col = None, update on score > best. -/
def aiLoop (b : Board) (depth : Nat) : List Nat → Option Nat → F → Option Nat × F
  | [], best, bs => (best, bs)
  | c :: cs, best, bs =>
    if is_valid_location b c then
      if bs < rootScore b depth c then aiLoop b depth cs (some c) (rootScore b depth c)
      else aiLoop b depth cs best bs
    else aiLoop b depth cs best bs

/-- The column chosen by the AI move phase of play_game_vs_ai. -/
def ai_move (b : Board) (depth : Nat) : Option Nat :=
  (aiLoop b depth (List.range COLS) none F.negInf).1

/-!
minimax_with_col (pygame_gui.py): the move-returning alpha-beta search.  The
Python code reads valid_locations[0] as the initial best column, which raises
on an empty list; that point is unreachable (a non-terminal board has a legal
column), and the model takes head? there.
-/

/-- Maximizing loop of minimax_with_col: if score > value: value = score,
best_col = col; alpha = max(alpha, value); if alpha >= beta: break. -/
def mwcLoopMax (f : Board → F → F) (b : Board) (ai : Nat) (beta : F) :
    List Nat → Option Nat → F → F → Option Nat × F
  | [], best, value, _ => (best, value)
  | col :: cols, best, value, alpha =>
    let score : F := f (childAt b col ai) alpha
    let best' : Option Nat := if value < score then some col else best
    let value' : F := if value < score then score else value
    let alpha' : F := max alpha value'
    if beta ≤ alpha' then (best', value')
    else mwcLoopMax f b ai beta cols best' value' alpha'

/-- Minimizing loop of minimax_with_col: the opponent moves;
beta = min(beta, value); if alpha >= beta: break. -/
def mwcLoopMin (f : Board → F → F) (b : Board) (opp : Nat) (alpha : F) :
    List Nat → Option Nat → F → F → Option Nat × F
  | [], best, value, _ => (best, value)
  | col :: cols, best, value, beta =>
    let score : F := f (childAt b col opp) beta
    let best' : Option Nat := if score < value then some col else best
    let value' : F := if score < value then score else value
    let beta' : F := min beta value'
    if beta' ≤ alpha then (best', value')
    else mwcLoopMin f b opp alpha cols best' value' beta'

/-- minimax_with_col: returns (best column, score); depth-0 and terminal
boards return (None, heuristic(board, ai_player)). -/
def minimax_with_col : Board → Nat → F → F → Bool → Nat → Option Nat × F
  | b, 0, _, _, _, ai => (none, F.val (heuristic b ai))
  | b, d + 1, alpha, beta, maximizing, ai =>
    if terminal b then (none, F.val (heuristic b ai))
    else if maximizing then
      mwcLoopMax (fun c a => (minimax_with_col c d a beta false ai).2) b ai beta
        (valid_cols b) (valid_cols b).head? F.negInf alpha
    else
      mwcLoopMin (fun c be => (minimax_with_col c d alpha be true ai).2) b
        (if ai = 2 then 1 else 2) alpha
        (valid_cols b) (valid_cols b).head? F.posInf beta

/-- The (column, score) pairs computed one by one by the root maximizing loop
of minimax_with_col when started on the full window: each score is produced
with the alpha accumulated from the scores before it. -/
def mwcRootTrace (b : Board) (d : Nat) (ai : Nat) : List Nat → F → List (Nat × F)
  | [], _ => []
  | col :: cols, alpha =>
    let score : F := (minimax_with_col (childAt b col ai) d alpha F.posInf false ai).2
    (col, score) :: mwcRootTrace b d ai cols (max alpha score)

/-!
Concrete boards used by witnesses and counterexamples.
-/

/-- A board whose every cell holds PlayerOne: the top row is full (is_draw)
and it contains many four-in-a-row lines (check_win). -/
def allOnes : Board := fun _ _ => 1

/-- Column 0 full with alternating pieces, all other columns empty. -/
def colFull : Board := boardOfList [[1], [2], [1], [2], [1], [2]]

/-- Columns 0 to 4 full with an alternating no-win pattern, column 5 empty,
column 6 holding two PlayerOne pieces.  Searching it with minimax_ab at depth
2 triggers a beta <= alpha break, but only at the last child of its loop, so
the break skips nothing and the pruned and unpruned node counts coincide. -/
def cexC2 : Board := boardOfList
  [[1, 2, 1, 2, 1, 0, 0],
   [1, 2, 1, 2, 1, 0, 0],
   [2, 1, 2, 1, 2, 0, 0],
   [2, 1, 2, 1, 2, 0, 0],
   [1, 2, 1, 2, 1, 0, 1],
   [1, 2, 1, 2, 1, 0, 1]]

/-- Columns 0 to 4 full with an alternating no-win pattern, columns 5 and 6
empty.  At depth 2 a break of minimax_ab skips an unvisited child here. -/
def witC2 : Board := boardOfList
  [[1, 2, 1, 2, 1, 0, 0],
   [1, 2, 1, 2, 1, 0, 0],
   [2, 1, 2, 1, 2, 0, 0],
   [2, 1, 2, 1, 2, 0, 0],
   [1, 2, 1, 2, 1, 0, 0],
   [1, 2, 1, 2, 1, 0, 0]]

/-!
Claim C5: check_win agrees with the existence of a length-4 run.
-/

/-- Four consecutive cells holding p along a horizontal, vertical or either
diagonal line of the 6 x 7 grid. -/
def hasFourRun (b : Board) (p : Nat) : Prop :=
  (∃ r c, r < ROWS ∧ c + 3 < COLS ∧ ∀ i < 4, b r (c + i) = p) ∨
  (∃ r c, r + 3 < ROWS ∧ c < COLS ∧ ∀ i < 4, b (r + i) c = p) ∨
  (∃ r c, r + 3 < ROWS ∧ c + 3 < COLS ∧ ∀ i < 4, b (r + i) (c + i) = p) ∨
  (∃ r c, 3 ≤ r ∧ r < ROWS ∧ c + 3 < COLS ∧ ∀ i < 4, b (r - i) (c + i) = p)

/-- C5: for every board and player, check_win returns true exactly when four
consecutive cells equal to the player exist along a horizontal, vertical or
either diagonal direction. -/
theorem c5_check_win_iff_run (b : Board) (p : Nat) :
    check_win b p = true ↔ hasFourRun b p := by
  unfold check_win hasFourRun ROWS COLS
  simp only [Bool.or_eq_true, List.any_eq_true, List.all_eq_true, List.mem_range,
    List.mem_range'_1, beq_iff_eq]
  constructor
  · rintro (((h | h) | h) | h)
    · obtain ⟨r, hr, c, hc, hh⟩ := h
      exact Or.inl ⟨r, c, by omega, by omega, hh⟩
    · obtain ⟨r, hr, c, hc, hh⟩ := h
      exact Or.inr (Or.inl ⟨r, c, by omega, by omega, hh⟩)
    · obtain ⟨r, hr, c, hc, hh⟩ := h
      exact Or.inr (Or.inr (Or.inl ⟨r, c, by omega, by omega, hh⟩))
    · obtain ⟨r, ⟨hr3, hr6⟩, c, hc, hh⟩ := h
      exact Or.inr (Or.inr (Or.inr ⟨r, c, by omega, by omega, by omega, hh⟩))
  · rintro (h | h | h | h)
    · obtain ⟨r, c, hr, hc, hh⟩ := h
      exact Or.inl (Or.inl (Or.inl ⟨r, by omega, c, by omega, hh⟩))
    · obtain ⟨r, c, hr, hc, hh⟩ := h
      exact Or.inl (Or.inl (Or.inr ⟨r, by omega, c, by omega, hh⟩))
    · obtain ⟨r, c, hr, hc, hh⟩ := h
      exact Or.inl (Or.inr ⟨r, by omega, c, by omega, hh⟩)
    · obtain ⟨r, c, hr3, hr6, hc, hh⟩ := h
      exact Or.inr ⟨r, ⟨by omega, by omega⟩, c, by omega, hh⟩

/-!
Claim C6: is_draw is the top-row-full test, but it is not mutually exclusive
with check_win: the source evaluates it independently of wins.
-/

/-- C6 counterexample: the all-PlayerOne board makes is_draw and check_win
both true, refuting the claimed mutual exclusivity. -/
theorem c6_counterexample : is_draw allOnes = true ∧ check_win allOnes 1 = true := by
  decide

/-- C6 amended: is_draw is true exactly when every column's top cell is
occupied; a true is_draw does not exclude check_win, as the full winning
board allOnes shows — callers must test check_win first. -/
theorem c6_is_draw_top_row (b : Board) :
    (is_draw b = true ↔ ∀ c < COLS, b 0 c ≠ 0) ∧
    (is_draw allOnes = true ∧ check_win allOnes 1 = true) := by
  refine ⟨?_, by decide, by decide⟩
  unfold is_draw COLS
  simp [List.all_eq_true, List.mem_range]

/-- C6 witness: the amended iff applied to the full board allOnes. -/
theorem c6_witness : is_draw allOnes = true :=
  (c6_is_draw_top_row allOnes).1.mpr (by decide)

/-!
Claim C7: error handling of get_next_open_row and drop_piece.  The source has
no InvalidColumn error at all: get_next_open_row falls through and returns
None on a full column, and drop_piece performs the numpy assignment with no
validation whatsoever.
-/

theorem scanRow_eq_none (b : Board) (c : Nat) :
    ∀ n, scanRow b c n = none ↔ ∀ r < n, b r c ≠ 0 := by
  intro n
  induction n with
  | zero => simp [scanRow]
  | succ n ih =>
    by_cases h : b n c = 0
    · simp only [scanRow, if_pos h]
      constructor
      · intro contra; exact absurd contra (by simp)
      · intro H; exact absurd h (H n (Nat.lt_succ_self n))
    · rw [scanRow, if_neg h, ih]
      constructor
      · intro H r hr
        rcases Nat.lt_succ_iff_lt_or_eq.mp hr with h1 | h1
        · exact H r h1
        · subst h1; exact h
      · intro H r hr; exact H r (Nat.lt_succ_of_lt hr)

theorem scanRow_eq_some (b : Board) (c : Nat) :
    ∀ n row, scanRow b c n = some row →
      b row c = 0 ∧ row < n ∧ ∀ r', row < r' → r' < n → b r' c ≠ 0 := by
  intro n
  induction n with
  | zero => intro row h; simp [scanRow] at h
  | succ n ih =>
    intro row h
    by_cases h0 : b n c = 0
    · rw [scanRow, if_pos h0, Option.some_inj] at h
      subst h
      exact ⟨h0, Nat.lt_succ_self n, fun r' h1 h2 => absurd h2 (by omega)⟩
    · rw [scanRow, if_neg h0] at h
      obtain ⟨he, hlt, habove⟩ := ih row h
      refine ⟨he, Nat.lt_succ_of_lt hlt, fun r' h1 h2 => ?_⟩
      rcases Nat.lt_succ_iff_lt_or_eq.mp h2 with h3 | h3
      · exact habove r' h1 h3
      · subst h3; exact h0

/-- C7 counterexample: on the board whose column 0 is full, get_next_open_row
returns the ordinary value None instead of signalling an error, and
drop_piece silently overwrites the occupied top cell (1 becomes 2) instead of
rejecting the drop: no InvalidColumn fail-fast behaviour exists. -/
theorem c7_counterexample :
    get_next_open_row colFull 0 = none ∧
    colFull 0 0 = 1 ∧ drop_piece colFull 0 0 2 0 0 = 2 := by
  decide

/-- C7 amended: get_next_open_row returns None exactly when the column has no
empty cell (no error is raised), and drop_piece writes unconditionally — even
over an occupied cell; callers must check is_valid_location first. -/
theorem c7_no_validation (b : Board) (c : Nat) :
    (get_next_open_row b c = none ↔ ∀ r < ROWS, b r c ≠ 0) ∧
    ∀ row p, drop_piece b row c p row c = p := by
  refine ⟨?_, fun row p => by simp [drop_piece]⟩
  exact scanRow_eq_none b c ROWS

/-- C7 witness: the amended theorem applied to the full column 0 of colFull. -/
theorem c7_witness : get_next_open_row colFull 0 = none :=
  (c7_no_validation colFull 0).1.mpr (by decide)

/-!
Claim C9: dropping at the landing row preserves the gravity invariant.
-/

/-- Gravity invariant: inside each column, below every occupied cell every
cell is occupied; equivalently the occupied cells form a contiguous run from
the bottom row upward with only empty cells above. -/
def gravity (b : Board) : Prop :=
  ∀ c < COLS, ∀ r < ROWS, b r c ≠ 0 → ∀ r' < ROWS, r < r' → b r' c ≠ 0

/-- C9: every successor board produced by get_children from a board
satisfying the gravity invariant satisfies it as well. -/
theorem c9_children_gravity (b : Board) (p : Nat) (hg : gravity b) :
    ∀ child ∈ get_children b p, gravity child := by
  intro child hchild
  obtain ⟨c, _hc, rfl⟩ := List.mem_map.mp hchild
  unfold childAt
  cases hrow : get_next_open_row b c with
  | none => exact hg
  | some row =>
    obtain ⟨hempty, hrowlt, habove⟩ := scanRow_eq_some b c ROWS row hrow
    show gravity (drop_piece b row c p)
    intro c2 hc2 r hr hocc r' hr' hlt
    have cell : ∀ x y, drop_piece b row c p x y = if x = row ∧ y = c then p else b x y :=
      fun _ _ => rfl
    rw [cell] at hocc
    rw [cell]
    by_cases hcc : c2 = c
    · by_cases hr'row : r' = row ∧ c2 = c
      · exfalso
        have hocc2 : b r c2 ≠ 0 := by
          have hne : ¬ (r = row ∧ c2 = c) := fun hand => by omega
          rwa [if_neg hne] at hocc
        exact hg c2 hc2 r hr hocc2 row hrowlt (by omega) (by rw [hcc]; exact hempty)
      · rw [if_neg hr'row]
        by_cases hrr : r = row ∧ c2 = c
        · have hfill : b r' c ≠ 0 := habove r' (by omega) hr'
          rw [hcc]
          exact hfill
        · have hocc2 : b r c2 ≠ 0 := by rwa [if_neg hrr] at hocc
          exact hg c2 hc2 r hr hocc2 r' hr' hlt
    · have h1 : ¬ (r = row ∧ c2 = c) := fun hand => hcc hand.2
      have h2 : ¬ (r' = row ∧ c2 = c) := fun hand => hcc hand.2
      rw [if_neg h2]
      have hocc2 : b r c2 ≠ 0 := by rwa [if_neg h1] at hocc
      exact hg c2 hc2 r hr hocc2 r' hr' hlt

/-- C9 witness: the invariant transported to the first successor of the empty
board. -/
theorem c9_witness : gravity (childAt create_board 0 1) :=
  c9_children_gravity create_board 1 (fun _ _ _ _ hocc => (hocc rfl).elim) _
    (List.mem_map_of_mem _ (by decide))

/-!
Claim C10: depth 0 and terminal boards make minimax_with_col return None as
the best column, paired with the heuristic score.
-/

/-- C10: at depth 0 or on a terminal board (a win for either player or a
draw), minimax_with_col returns (None, heuristic(board, ai_player)). -/
theorem c10_base_returns_none (b : Board) (d : Nat) (alpha beta : F) (m : Bool)
    (ai : Nat) (h : d = 0 ∨ terminal b = true) :
    minimax_with_col b d alpha beta m ai = (none, F.val (heuristic b ai)) := by
  cases d with
  | zero => rfl
  | succ n =>
    rcases h with h0 | ht
    · exact absurd h0 (Nat.succ_ne_zero n)
    · simp [minimax_with_col, ht]

/-- C10 witness: the finished board allOnes at depth 3. -/
theorem c10_witness :
    minimax_with_col allOnes 3 F.negInf F.posInf true 1 =
      (none, F.val (heuristic allOnes 1)) :=
  c10_base_returns_none allOnes 3 F.negInf F.posInf true 1 (Or.inr (by decide))

/-!
Claim C3: top-level depth-1 selection on the empty board.  Every depth-1 root
score is heuristic 0 — a lone piece fills no scoring pattern of score_window —
so the strictly-greater update keeps column 0, not the center column 3.
-/

/-- C3 counterexample: on the all-empty board at depth 1 the play_game_vs_ai
selection returns column 0, not the claimed center column 3. -/
theorem c3_counterexample :
    ai_move create_board 1 = some 0 ∧ ai_move create_board 1 ≠ some 3 := by
  decide

/-- C3 amended: on the empty board at depth 1 every legal column scores
heuristic 0, and the first-seen-wins tie-break returns column 0. -/
theorem c3_empty_board_depth_one :
    ai_move create_board 1 = some 0 ∧
    ∀ c < COLS, rootScore create_board 1 c = F.val 0 := by
  decide

/-- C3 witness: the amended theorem evaluated at the center column. -/
theorem c3_witness : rootScore create_board 1 3 = F.val 0 :=
  c3_empty_board_depth_one.2 3 (by decide)

/-!
Lemmas about the maximizing/minimizing loop bodies, shared by the claims about
the searches (C1, C2, C4, C8).
-/

theorem ite_lt_max (a b : F) : (if a < b then b else a) = max a b := by
  rcases le_or_lt b a with h | h
  · rw [if_neg (not_lt.mpr h), max_eq_left h]
  · rw [if_pos h, max_eq_right h.le]

theorem ite_lt_min (a b : F) : (if b < a then b else a) = min a b := by
  rcases le_or_lt a b with h | h
  · rw [if_neg (not_lt.mpr h), min_eq_left h]
  · rw [if_pos h, min_eq_right h.le]

theorem npFoldMax_cons (f : Board → F) (c : Board) (cs : List Board) (value : F) :
    npFoldMax f (c :: cs) value = npFoldMax f cs (max value (f c)) := by
  rw [npFoldMax, ite_lt_max]

theorem npFoldMin_cons (f : Board → F) (c : Board) (cs : List Board) (value : F) :
    npFoldMin f (c :: cs) value = npFoldMin f cs (min value (f c)) := by
  rw [npFoldMin, ite_lt_min]

theorem npFoldMax_max (f : Board → F) (cs : List Board) :
    ∀ a x, npFoldMax f cs (max a x) = max a (npFoldMax f cs x) := by
  induction cs with
  | nil => intro a x; rfl
  | cons c cs ih => intro a x; rw [npFoldMax_cons, npFoldMax_cons, max_assoc, ih]

theorem npFoldMin_min (f : Board → F) (cs : List Board) :
    ∀ a x, npFoldMin f cs (min a x) = min a (npFoldMin f cs x) := by
  induction cs with
  | nil => intro a x; rfl
  | cons c cs ih => intro a x; rw [npFoldMin_cons, npFoldMin_cons, min_assoc, ih]

theorem npFoldMax_eq_max (f : Board → F) (cs : List Board) (x : F) :
    npFoldMax f cs x = max x (npFoldMax f cs F.negInf) := by
  have h := npFoldMax_max f cs x F.negInf
  rwa [max_eq_left (F.negInf_le x)] at h

theorem npFoldMin_eq_min (f : Board → F) (cs : List Board) (x : F) :
    npFoldMin f cs x = min x (npFoldMin f cs F.posInf) := by
  have h := npFoldMin_min f cs x F.posInf
  rwa [min_eq_left (F.le_posInf x)] at h

theorem le_npFoldMax (f : Board → F) (cs : List Board) (x : F) :
    x ≤ npFoldMax f cs x := by
  rw [npFoldMax_eq_max]; exact le_max_left _ _

theorem npFoldMin_le (f : Board → F) (cs : List Board) (x : F) :
    npFoldMin f cs x ≤ x := by
  rw [npFoldMin_eq_min]; exact min_le_left _ _

theorem npFoldMax_mono (f : Board → F) (cs : List Board) {x y : F} (h : x ≤ y) :
    npFoldMax f cs x ≤ npFoldMax f cs y := by
  rw [npFoldMax_eq_max, npFoldMax_eq_max f cs y]
  exact max_le_max h le_rfl

theorem npFoldMin_mono (f : Board → F) (cs : List Board) {x y : F} (h : x ≤ y) :
    npFoldMin f cs x ≤ npFoldMin f cs y := by
  rw [npFoldMin_eq_min, npFoldMin_eq_min f cs y]
  exact min_le_min h le_rfl

theorem npFoldMax_isVal (f : Board → F) :
    ∀ (cs : List Board) (x : F), (∀ c ∈ cs, F.IsVal (f c)) →
      (F.IsVal x ∨ (x = F.negInf ∧ cs ≠ [])) → F.IsVal (npFoldMax f cs x) := by
  intro cs
  induction cs with
  | nil =>
    rintro x hf (hx | ⟨_, hne⟩)
    · exact hx
    · exact absurd rfl hne
  | cons c cs ih =>
    intro x hf hx
    rw [npFoldMax_cons]
    have hc : F.IsVal (f c) := hf c (List.mem_cons_self c cs)
    refine ih _ (fun c2 h2 => hf c2 (List.mem_cons_of_mem c h2)) (Or.inl ?_)
    rcases hx with hx | ⟨rfl, _⟩
    · exact F.isVal_max hx hc
    · rwa [max_eq_right (F.negInf_le _)]

theorem npFoldMin_isVal (f : Board → F) :
    ∀ (cs : List Board) (x : F), (∀ c ∈ cs, F.IsVal (f c)) →
      (F.IsVal x ∨ (x = F.posInf ∧ cs ≠ [])) → F.IsVal (npFoldMin f cs x) := by
  intro cs
  induction cs with
  | nil =>
    rintro x hf (hx | ⟨_, hne⟩)
    · exact hx
    · exact absurd rfl hne
  | cons c cs ih =>
    intro x hf hx
    rw [npFoldMin_cons]
    have hc : F.IsVal (f c) := hf c (List.mem_cons_self c cs)
    refine ih _ (fun c2 h2 => hf c2 (List.mem_cons_of_mem c h2)) (Or.inl ?_)
    rcases hx with hx | ⟨rfl, _⟩
    · exact F.isVal_min hx hc
    · rwa [min_eq_right (F.le_posInf _)]

/-- Unfolding of the internal-node case of minimax_no_pruning. -/
theorem minimax_no_pruning_succ (b : Board) (d : Nat) (maximizing : Bool) :
    minimax_no_pruning b (d + 1) maximizing =
      if terminal b then F.val (heuristic b 1)
      else if maximizing then
        npFoldMax (fun c => minimax_no_pruning c d false) (get_children b 1) F.negInf
      else
        npFoldMin (fun c => minimax_no_pruning c d true) (get_children b 2) F.posInf := rfl

/-- Unfolding of the internal-node case of minimax_ab. -/
theorem minimax_ab_succ (b : Board) (d : Nat) (alpha beta : F) (maximizing : Bool) :
    minimax_ab b (d + 1) alpha beta maximizing =
      if terminal b then F.val (heuristic b 1)
      else if maximizing then
        abFoldMax (fun c a => minimax_ab c d a beta false) beta (get_children b 1)
          F.negInf alpha
      else
        abFoldMin (fun c be => minimax_ab c d alpha be true) alpha (get_children b 2)
          F.posInf beta := rfl

/-- A non-terminal board has a legal column: not being a draw means some top
cell is empty. -/
theorem valid_cols_ne_nil (b : Board) (ht : terminal b = false) :
    valid_cols b ≠ [] := by
  have hd : is_draw b = false := by
    unfold terminal at ht
    simp only [Bool.or_eq_false_iff] at ht
    exact ht.2
  unfold is_draw at hd
  rw [List.all_eq_false] at hd
  obtain ⟨c, hc, hcf⟩ := hd
  have hcv : is_valid_location b c = true := by
    unfold is_valid_location
    simp at hcf
    simp [List.mem_range.mp hc, hcf]
  exact List.ne_nil_of_mem (List.mem_filter.mpr ⟨hc, hcv⟩)

theorem get_children_ne_nil (b : Board) (p : Nat) (ht : terminal b = false) :
    get_children b p ≠ [] := by
  unfold get_children
  simp only [ne_eq, List.map_eq_nil_iff]
  exact valid_cols_ne_nil b ht

/-- The value of the no-pruning search is always a finite integer: leaves are
heuristic values and internal nodes fold a nonempty list of finite values. -/
theorem np_isVal : ∀ (d : Nat) (b : Board) (m : Bool),
    F.IsVal (minimax_no_pruning b d m) := by
  intro d
  induction d with
  | zero => intro b m; exact trivial
  | succ d ih =>
    intro b m
    by_cases ht : terminal b = true
    · rw [minimax_no_pruning_succ, if_pos ht]
      exact trivial
    · rw [Bool.not_eq_true] at ht
      rw [minimax_no_pruning_succ, if_neg (by rw [ht]; exact Bool.false_ne_true)]
      cases m with
      | true =>
        rw [if_pos rfl]
        exact npFoldMax_isVal _ _ _ (fun c _ => ih c false)
          (Or.inr ⟨rfl, get_children_ne_nil b 1 ht⟩)
      | false =>
        rw [if_neg (by exact Bool.false_ne_true)]
        exact npFoldMin_isVal _ _ _ (fun c _ => ih c true)
          (Or.inr ⟨rfl, get_children_ne_nil b 2 ht⟩)

/-!
Alpha-beta correctness (C1): the pruned search agrees with the unpruned one
on the full window.  The loop lemmas below are the classic fail-soft
invariants: with window (alpha0, beta), a result at most alpha0 is an upper
bound on the true value, a result at least beta is a lower bound, and a
result strictly inside the window is exact.
-/

theorem max_swap_right (a b c : F) : max (max a b) c = max (max a c) b := by
  rw [max_assoc, max_comm b c, ← max_assoc]

theorem min_swap_right (a b c : F) : min (min a b) c = min (min a c) b := by
  rw [min_assoc, min_comm b c, ← min_assoc]

theorem abFoldMax_cons (f : Board → F → F) (beta : F) (c : Board) (cs : List Board)
    (value alpha : F) :
    abFoldMax f beta (c :: cs) value alpha =
      if beta ≤ max alpha (f c alpha) then max value (f c alpha)
      else abFoldMax f beta cs (max value (f c alpha)) (max alpha (f c alpha)) := by
  simp only [abFoldMax, ite_lt_max]

theorem abFoldMin_cons (f : Board → F → F) (alpha : F) (c : Board) (cs : List Board)
    (value beta : F) :
    abFoldMin f alpha (c :: cs) value beta =
      if min beta (f c beta) ≤ alpha then min value (f c beta)
      else abFoldMin f alpha cs (min value (f c beta)) (min beta (f c beta)) := by
  simp only [abFoldMin, ite_lt_min]

theorem abFoldMax_spec (f : Board → F → F) (s : Board → F) (beta alpha0 : F)
    (hab : alpha0 < beta)
    (hchild : ∀ c alpha, alpha < beta →
      (f c alpha ≤ alpha → s c ≤ f c alpha) ∧
      (beta ≤ f c alpha → f c alpha ≤ s c) ∧
      (alpha < f c alpha → f c alpha < beta → f c alpha = s c)) :
    ∀ (cs : List Board) (value alpha : F), alpha = max alpha0 value → alpha < beta →
      value ≤ abFoldMax f beta cs value alpha ∧
      (abFoldMax f beta cs value alpha ≤ alpha0 →
        npFoldMax s cs value ≤ abFoldMax f beta cs value alpha) ∧
      (alpha0 < abFoldMax f beta cs value alpha →
        abFoldMax f beta cs value alpha < beta →
        abFoldMax f beta cs value alpha = npFoldMax s cs value) ∧
      (beta ≤ abFoldMax f beta cs value alpha →
        abFoldMax f beta cs value alpha ≤ npFoldMax s cs value) := by
  intro cs
  induction cs with
  | nil =>
    intro value alpha _ _
    exact ⟨le_rfl, fun _ => le_rfl, fun _ _ => rfl, fun _ => le_rfl⟩
  | cons c cs ih =>
    intro value alpha halpha hlt
    rw [abFoldMax_cons, npFoldMax_cons]
    set v := f c alpha with hv
    by_cases hcut : beta ≤ max alpha v
    · rw [if_pos hcut]
      have hbv : beta ≤ v := by
        rcases le_max_iff.mp hcut with h | h
        · exact absurd h (not_le.mpr hlt)
        · exact h
      have hvs : v ≤ s c := (hchild c alpha hlt).2.1 hbv
      refine ⟨le_max_left value v, ?_, ?_, ?_⟩
      · intro hle
        have hba : beta ≤ alpha0 := le_trans hbv (le_trans (le_max_right value v) hle)
        exact absurd hba (not_le.mpr hab)
      · intro _ hltb
        have : beta ≤ max value v := le_trans hbv (le_max_right _ _)
        exact absurd this (not_le.mpr hltb)
      · intro _
        have h1 : value ≤ max value (s c) := le_max_left _ _
        have h2 : v ≤ max value (s c) := le_trans hvs (le_max_right _ _)
        exact le_trans (max_le h1 h2) (le_npFoldMax s cs _)
    · rw [if_neg hcut]
      have hlt' : max alpha v < beta := not_le.mp hcut
      have halpha' : max alpha v = max alpha0 (max value v) := by
        rw [halpha, max_assoc]
      obtain ⟨ihA, ihB, ihC, ihD⟩ := ih (max value v) (max alpha v) halpha' hlt'
      have hvb : v < beta := lt_of_le_of_lt (le_max_right _ _) hlt'
      rcases le_or_lt v alpha with hva | hva
      · -- the child failed low: its true value is at most v, itself at most alpha
        have hsc : s c ≤ v := (hchild c alpha hlt).1 hva
        have hNv : npFoldMax s cs (max value v) =
            max (max value (npFoldMax s cs F.negInf)) v := by
          rw [npFoldMax_eq_max, max_swap_right]
        have hNs : npFoldMax s cs (max value (s c)) =
            max (max value (npFoldMax s cs F.negInf)) (s c) := by
          rw [npFoldMax_eq_max, max_swap_right]
        set N := npFoldMax s cs F.negInf
        refine ⟨le_trans (le_max_left value v) ihA, ?_, ?_, ?_⟩
        · intro hle
          refine le_trans ?_ (ihB hle)
          rw [hNv, hNs]
          exact max_le_max le_rfl hsc
        · intro h1 h2
          have heq := ihC h1 h2
          rcases le_or_lt v (max value N) with hcase | hcase
          · rw [heq, hNv, hNs, max_eq_left hcase, max_eq_left (le_trans hsc hcase)]
          · exfalso
            have hrv : abFoldMax f beta cs (max value v) (max alpha v) = v := by
              rw [heq, hNv]
              exact max_eq_right hcase.le
            have hvalue : value < v := lt_of_le_of_lt (le_max_left value N) hcase
            have hva0 : v ≤ alpha0 := by
              rw [halpha] at hva
              rcases le_max_iff.mp hva with h | h
              · exact h
              · exact absurd h (not_le.mpr hvalue)
            rw [hrv] at h1
            exact absurd (lt_of_lt_of_le h1 hva0) (lt_irrefl alpha0)
        · intro hge
          have hrle := ihD hge
          rcases le_or_lt v (max value N) with hcase | hcase
          · have e1 : npFoldMax s cs (max value v) = max value N := by
              rw [hNv]
              exact max_eq_left hcase
            rw [e1] at hrle
            refine le_trans hrle ?_
            rw [hNs]
            exact le_max_left _ _
          · exfalso
            have e1 : npFoldMax s cs (max value v) = v := by
              rw [hNv]
              exact max_eq_right hcase.le
            rw [e1] at hrle
            have hbv : beta ≤ v := le_trans hge hrle
            have : beta ≤ alpha := le_trans hbv hva
            exact absurd this (not_le.mpr hlt)
      · -- the child value lies inside (alpha, beta): it is exact
        have hvs : v = s c := (hchild c alpha hlt).2.2 hva hvb
        rw [← hvs]
        exact ⟨le_trans (le_max_left value v) ihA, ihB, ihC, ihD⟩

theorem abFoldMin_spec (f : Board → F → F) (s : Board → F) (alpha beta0 : F)
    (hab : alpha < beta0)
    (hchild : ∀ c beta, alpha < beta →
      (f c beta ≤ alpha → s c ≤ f c beta) ∧
      (beta ≤ f c beta → f c beta ≤ s c) ∧
      (alpha < f c beta → f c beta < beta → f c beta = s c)) :
    ∀ (cs : List Board) (value beta : F), beta = min beta0 value → alpha < beta →
      abFoldMin f alpha cs value beta ≤ value ∧
      (beta0 ≤ abFoldMin f alpha cs value beta →
        abFoldMin f alpha cs value beta ≤ npFoldMin s cs value) ∧
      (alpha < abFoldMin f alpha cs value beta →
        abFoldMin f alpha cs value beta < beta0 →
        abFoldMin f alpha cs value beta = npFoldMin s cs value) ∧
      (abFoldMin f alpha cs value beta ≤ alpha →
        npFoldMin s cs value ≤ abFoldMin f alpha cs value beta) := by
  intro cs
  induction cs with
  | nil =>
    intro value beta _ _
    exact ⟨le_rfl, fun _ => le_rfl, fun _ _ => rfl, fun _ => le_rfl⟩
  | cons c cs ih =>
    intro value beta hbeta hlt
    rw [abFoldMin_cons, npFoldMin_cons]
    set v := f c beta with hv
    by_cases hcut : min beta v ≤ alpha
    · rw [if_pos hcut]
      have hva : v ≤ alpha := by
        rcases min_le_iff.mp hcut with h | h
        · exact absurd h (not_le.mpr hlt)
        · exact h
      have hvs : s c ≤ v := (hchild c beta hlt).1 hva
      refine ⟨min_le_left value v, ?_, ?_, ?_⟩
      · intro hge
        have : beta0 ≤ alpha := le_trans hge (le_trans (min_le_right value v) hva)
        exact absurd this (not_le.mpr hab)
      · intro h1 _
        have : min value v ≤ alpha := le_trans (min_le_right _ _) hva
        exact absurd (lt_of_lt_of_le h1 this) (lt_irrefl alpha)
      · intro _
        have h1 : min value (s c) ≤ value := min_le_left _ _
        have h2 : min value (s c) ≤ v := le_trans (min_le_right _ _) hvs
        exact le_trans (npFoldMin_le s cs _) (le_min h1 h2)
    · rw [if_neg hcut]
      have hlt' : alpha < min beta v := not_le.mp hcut
      have hbeta' : min beta v = min beta0 (min value v) := by
        rw [hbeta, min_assoc]
      obtain ⟨ihA, ihB, ihC, ihD⟩ := ih (min value v) (min beta v) hbeta' hlt'
      have hav : alpha < v := lt_of_lt_of_le hlt' (min_le_right _ _)
      rcases le_or_lt beta v with hvb | hvb
      · -- the child failed high: its true value is at least v, itself at least beta
        have hsc : v ≤ s c := (hchild c beta hlt).2.1 hvb
        have hNv : npFoldMin s cs (min value v) =
            min (min value (npFoldMin s cs F.posInf)) v := by
          rw [npFoldMin_eq_min, min_swap_right]
        have hNs : npFoldMin s cs (min value (s c)) =
            min (min value (npFoldMin s cs F.posInf)) (s c) := by
          rw [npFoldMin_eq_min, min_swap_right]
        set N := npFoldMin s cs F.posInf
        refine ⟨le_trans ihA (min_le_left value v), ?_, ?_, ?_⟩
        · intro hge
          refine le_trans (ihB hge) ?_
          rw [hNv, hNs]
          exact min_le_min le_rfl hsc
        · intro h1 h2
          have heq := ihC h1 h2
          rcases le_or_lt (min value N) v with hcase | hcase
          · rw [heq, hNv, hNs, min_eq_left hcase, min_eq_left (le_trans hcase hsc)]
          · exfalso
            have hrv : abFoldMin f alpha cs (min value v) (min beta v) = v := by
              rw [heq, hNv]
              exact min_eq_right hcase.le
            have hvalue : v < value := lt_of_lt_of_le hcase (min_le_left value N)
            have hvb0 : beta0 ≤ v := by
              rw [hbeta] at hvb
              rcases min_le_iff.mp hvb with h | h
              · exact h
              · exact absurd h (not_le.mpr hvalue)
            rw [hrv] at h2
            exact absurd (lt_of_le_of_lt hvb0 h2) (lt_irrefl beta0)
        · intro hle
          have hrle := ihD hle
          rcases le_or_lt (min value N) v with hcase | hcase
          · have e1 : npFoldMin s cs (min value v) = min value N := by
              rw [hNv]
              exact min_eq_left hcase
            rw [e1] at hrle
            refine le_trans ?_ hrle
            rw [hNs]
            exact min_le_left _ _
          · exfalso
            have e1 : npFoldMin s cs (min value v) = v := by
              rw [hNv]
              exact min_eq_right hcase.le
            rw [e1] at hrle
            have hvr : beta ≤ alpha := le_trans hvb (le_trans hrle hle)
            exact absurd hvr (not_le.mpr hlt)
      · -- the child value lies inside (alpha, beta): it is exact
        have hvs : v = s c := (hchild c beta hlt).2.2 hav hvb
        rw [← hvs]
        exact ⟨le_trans ihA (min_le_left value v), ihB, ihC, ihD⟩

theorem minimax_no_pruning_term (b : Board) (d : Nat) (m : Bool)
    (ht : terminal b = true) :
    minimax_no_pruning b (d + 1) m = F.val (heuristic b 1) := by
  rw [minimax_no_pruning_succ, if_pos ht]

theorem minimax_no_pruning_max (b : Board) (d : Nat) (ht : terminal b = false) :
    minimax_no_pruning b (d + 1) true =
      npFoldMax (fun c => minimax_no_pruning c d false) (get_children b 1) F.negInf := by
  rw [minimax_no_pruning_succ, ht]
  simp

theorem minimax_no_pruning_min (b : Board) (d : Nat) (ht : terminal b = false) :
    minimax_no_pruning b (d + 1) false =
      npFoldMin (fun c => minimax_no_pruning c d true) (get_children b 2) F.posInf := by
  rw [minimax_no_pruning_succ, ht]
  simp

theorem minimax_ab_term (b : Board) (d : Nat) (alpha beta : F) (m : Bool)
    (ht : terminal b = true) :
    minimax_ab b (d + 1) alpha beta m = F.val (heuristic b 1) := by
  rw [minimax_ab_succ, if_pos ht]

theorem minimax_ab_max (b : Board) (d : Nat) (alpha beta : F) (ht : terminal b = false) :
    minimax_ab b (d + 1) alpha beta true =
      abFoldMax (fun c a => minimax_ab c d a beta false) beta (get_children b 1)
        F.negInf alpha := by
  rw [minimax_ab_succ, ht]
  simp

theorem minimax_ab_min (b : Board) (d : Nat) (alpha beta : F) (ht : terminal b = false) :
    minimax_ab b (d + 1) alpha beta false =
      abFoldMin (fun c be => minimax_ab c d alpha be true) alpha (get_children b 2)
        F.posInf beta := by
  rw [minimax_ab_succ, ht]
  simp

/-- The fail-soft alpha-beta relation: on any window (alpha, beta) with
alpha < beta, a pruned result at most alpha bounds the true minimax value
from above, a result at least beta bounds it from below, and a result
strictly inside the window equals it. -/
theorem ab_np_rel : ∀ (d : Nat) (b : Board) (alpha beta : F) (m : Bool),
    alpha < beta →
    (minimax_ab b d alpha beta m ≤ alpha →
      minimax_no_pruning b d m ≤ minimax_ab b d alpha beta m) ∧
    (beta ≤ minimax_ab b d alpha beta m →
      minimax_ab b d alpha beta m ≤ minimax_no_pruning b d m) ∧
    (alpha < minimax_ab b d alpha beta m → minimax_ab b d alpha beta m < beta →
      minimax_ab b d alpha beta m = minimax_no_pruning b d m) := by
  intro d
  induction d with
  | zero =>
    intro b alpha beta m _
    exact ⟨fun _ => le_rfl, fun _ => le_rfl, fun _ _ => rfl⟩
  | succ d ih =>
    intro b alpha beta m hab
    by_cases ht : terminal b = true
    · rw [minimax_ab_succ, minimax_no_pruning_succ, if_pos ht, if_pos ht]
      exact ⟨fun _ => le_rfl, fun _ => le_rfl, fun _ _ => rfl⟩
    · rw [Bool.not_eq_true] at ht
      cases m with
      | true =>
        rw [minimax_ab_max b d alpha beta ht, minimax_no_pruning_max b d ht]
        obtain ⟨hA, hB, hC, hD⟩ :=
          abFoldMax_spec (fun c a => minimax_ab c d a beta false)
            (fun c => minimax_no_pruning c d false) beta alpha hab
            (fun c a haltb => ih c a beta false haltb)
            (get_children b 1) F.negInf alpha
            (by rw [max_eq_left (F.negInf_le alpha)]) hab
        exact ⟨hB, hD, hC⟩
      | false =>
        rw [minimax_ab_min b d alpha beta ht, minimax_no_pruning_min b d ht]
        obtain ⟨hA, hB, hC, hD⟩ :=
          abFoldMin_spec (fun c be => minimax_ab c d alpha be true)
            (fun c => minimax_no_pruning c d true) alpha beta hab
            (fun c be halt => ih c alpha be true halt)
            (get_children b 2) F.posInf beta
            (by rw [min_eq_left (F.le_posInf beta)]) hab
        exact ⟨hD, hB, hC⟩

/-- C1: on the full window (-inf, +inf), the alpha-beta search minimax_ab
returns exactly the score of minimax_no_pruning, for every board, depth and
maximizing flag: pruning never changes the returned value. -/
theorem c1_ab_equals_no_pruning (b : Board) (d : Nat) (m : Bool) :
    minimax_ab b d F.negInf F.posInf m = minimax_no_pruning b d m := by
  obtain ⟨hA, hB, hC⟩ := ab_np_rel d b F.negInf F.posInf m (by decide)
  have hnp := np_isVal d b m
  rcases lt_or_le F.negInf (minimax_ab b d F.negInf F.posInf m) with h1 | h1
  · rcases lt_or_le (minimax_ab b d F.negInf F.posInf m) F.posInf with h2 | h2
    · exact hC h1 h2
    · exact absurd (le_trans h2 (hB h2)) (F.not_posInf_le_of_isVal hnp)
  · exact absurd (le_trans (hA h1) h1) (F.not_le_negInf_of_isVal hnp)

/-!
Claim C2: node counts.  The pruned count never exceeds the unpruned one; the
strict part of the claim is settled below (it requires the break to skip an
unvisited child, which a break on the last child of a loop does not).
-/

theorem npNodes_succ (b : Board) (d : Nat) (m : Bool) :
    npNodes b (d + 1) m =
      if terminal b then 1
      else if m then 1 + ((get_children b 1).map fun c => npNodes c d false).sum
      else 1 + ((get_children b 2).map fun c => npNodes c d true).sum := rfl

theorem npNodes_term (b : Board) (d : Nat) (m : Bool) (ht : terminal b = true) :
    npNodes b (d + 1) m = 1 := by
  rw [npNodes_succ, if_pos ht]

theorem npNodes_max (b : Board) (d : Nat) (ht : terminal b = false) :
    npNodes b (d + 1) true =
      1 + ((get_children b 1).map fun c => npNodes c d false).sum := by
  rw [npNodes_succ, ht]
  simp

theorem npNodes_min (b : Board) (d : Nat) (ht : terminal b = false) :
    npNodes b (d + 1) false =
      1 + ((get_children b 2).map fun c => npNodes c d true).sum := by
  rw [npNodes_succ, ht]
  simp

theorem abNodes_succ (b : Board) (d : Nat) (alpha beta : F) (m : Bool) :
    abNodes b (d + 1) alpha beta m =
      if terminal b then 1
      else if m then
        1 + abNodesFoldMax (fun c a => minimax_ab c d a beta false)
          (fun c a => abNodes c d a beta false) beta (get_children b 1) F.negInf alpha
      else
        1 + abNodesFoldMin (fun c be => minimax_ab c d alpha be true)
          (fun c be => abNodes c d alpha be true) alpha (get_children b 2)
          F.posInf beta := rfl

theorem abNodes_term (b : Board) (d : Nat) (alpha beta : F) (m : Bool)
    (ht : terminal b = true) : abNodes b (d + 1) alpha beta m = 1 := by
  rw [abNodes_succ, if_pos ht]

theorem abNodes_max (b : Board) (d : Nat) (alpha beta : F) (ht : terminal b = false) :
    abNodes b (d + 1) alpha beta true =
      1 + abNodesFoldMax (fun c a => minimax_ab c d a beta false)
        (fun c a => abNodes c d a beta false) beta (get_children b 1)
        F.negInf alpha := by
  rw [abNodes_succ, ht]
  simp

theorem abNodes_min (b : Board) (d : Nat) (alpha beta : F) (ht : terminal b = false) :
    abNodes b (d + 1) alpha beta false =
      1 + abNodesFoldMin (fun c be => minimax_ab c d alpha be true)
        (fun c be => abNodes c d alpha be true) alpha (get_children b 2)
        F.posInf beta := by
  rw [abNodes_succ, ht]
  simp

theorem abSkips_succ (b : Board) (d : Nat) (alpha beta : F) (m : Bool) :
    abSkips b (d + 1) alpha beta m =
      if terminal b then false
      else if m then
        abSkipsFoldMax (fun c a => minimax_ab c d a beta false)
          (fun c a => abSkips c d a beta false) beta (get_children b 1) F.negInf alpha
      else
        abSkipsFoldMin (fun c be => minimax_ab c d alpha be true)
          (fun c be => abSkips c d alpha be true) alpha (get_children b 2)
          F.posInf beta := rfl

theorem abSkips_term (b : Board) (d : Nat) (alpha beta : F) (m : Bool)
    (ht : terminal b = true) : abSkips b (d + 1) alpha beta m = false := by
  rw [abSkips_succ, if_pos ht]

theorem abSkips_max (b : Board) (d : Nat) (alpha beta : F) (ht : terminal b = false) :
    abSkips b (d + 1) alpha beta true =
      abSkipsFoldMax (fun c a => minimax_ab c d a beta false)
        (fun c a => abSkips c d a beta false) beta (get_children b 1)
        F.negInf alpha := by
  rw [abSkips_succ, ht]
  simp

theorem abSkips_min (b : Board) (d : Nat) (alpha beta : F) (ht : terminal b = false) :
    abSkips b (d + 1) alpha beta false =
      abSkipsFoldMin (fun c be => minimax_ab c d alpha be true)
        (fun c be => abSkips c d alpha be true) alpha (get_children b 2)
        F.posInf beta := by
  rw [abSkips_succ, ht]
  simp

theorem abNodesFoldMax_cons (f : Board → F → F) (g : Board → F → Nat) (beta : F)
    (c : Board) (cs : List Board) (value alpha : F) :
    abNodesFoldMax f g beta (c :: cs) value alpha =
      if beta ≤ max alpha (f c alpha) then g c alpha
      else g c alpha +
        abNodesFoldMax f g beta cs (max value (f c alpha)) (max alpha (f c alpha)) := by
  simp only [abNodesFoldMax, ite_lt_max]

theorem abNodesFoldMin_cons (f : Board → F → F) (g : Board → F → Nat) (alpha : F)
    (c : Board) (cs : List Board) (value beta : F) :
    abNodesFoldMin f g alpha (c :: cs) value beta =
      if min beta (f c beta) ≤ alpha then g c beta
      else g c beta +
        abNodesFoldMin f g alpha cs (min value (f c beta)) (min beta (f c beta)) := by
  simp only [abNodesFoldMin, ite_lt_min]

theorem abSkipsFoldMax_cons (f : Board → F → F) (gs : Board → F → Bool) (beta : F)
    (c : Board) (cs : List Board) (value alpha : F) :
    abSkipsFoldMax f gs beta (c :: cs) value alpha =
      if beta ≤ max alpha (f c alpha) then gs c alpha || !cs.isEmpty
      else gs c alpha ||
        abSkipsFoldMax f gs beta cs (max value (f c alpha)) (max alpha (f c alpha)) := by
  simp only [abSkipsFoldMax, ite_lt_max]

theorem abSkipsFoldMin_cons (f : Board → F → F) (gs : Board → F → Bool) (alpha : F)
    (c : Board) (cs : List Board) (value beta : F) :
    abSkipsFoldMin f gs alpha (c :: cs) value beta =
      if min beta (f c beta) ≤ alpha then gs c beta || !cs.isEmpty
      else gs c beta ||
        abSkipsFoldMin f gs alpha cs (min value (f c beta)) (min beta (f c beta)) := by
  simp only [abSkipsFoldMin, ite_lt_min]

theorem abNodesFoldMax_le (f : Board → F → F) (g : Board → F → Nat) (h : Board → Nat)
    (beta : F) (hg : ∀ c a, g c a ≤ h c) :
    ∀ (cs : List Board) (value alpha : F),
      abNodesFoldMax f g beta cs value alpha ≤ (cs.map h).sum := by
  intro cs
  induction cs with
  | nil => intro value alpha; exact Nat.zero_le _
  | cons c cs ih =>
    intro value alpha
    rw [abNodesFoldMax_cons, List.map_cons, List.sum_cons]
    by_cases hcut : beta ≤ max alpha (f c alpha)
    · rw [if_pos hcut]
      exact le_trans (hg c alpha) (Nat.le_add_right _ _)
    · rw [if_neg hcut]
      exact Nat.add_le_add (hg c alpha) (ih _ _)

theorem abNodesFoldMin_le (f : Board → F → F) (g : Board → F → Nat) (h : Board → Nat)
    (alpha : F) (hg : ∀ c be, g c be ≤ h c) :
    ∀ (cs : List Board) (value beta : F),
      abNodesFoldMin f g alpha cs value beta ≤ (cs.map h).sum := by
  intro cs
  induction cs with
  | nil => intro value beta; exact Nat.zero_le _
  | cons c cs ih =>
    intro value beta
    rw [abNodesFoldMin_cons, List.map_cons, List.sum_cons]
    by_cases hcut : min beta (f c beta) ≤ alpha
    · rw [if_pos hcut]
      exact le_trans (hg c beta) (Nat.le_add_right _ _)
    · rw [if_neg hcut]
      exact Nat.add_le_add (hg c beta) (ih _ _)

theorem one_le_npNodes : ∀ (d : Nat) (b : Board) (m : Bool), 1 ≤ npNodes b d m := by
  intro d b m
  cases d with
  | zero => exact le_rfl
  | succ d =>
    by_cases ht : terminal b = true
    · rw [npNodes_term b d m ht]
    · rw [Bool.not_eq_true] at ht
      cases m with
      | true => rw [npNodes_max b d ht]; exact Nat.le_add_right 1 _
      | false => rw [npNodes_min b d ht]; exact Nat.le_add_right 1 _

/-- The pruned node count never exceeds the unpruned one, on any window. -/
theorem abNodes_le_npNodes : ∀ (d : Nat) (b : Board) (alpha beta : F) (m : Bool),
    abNodes b d alpha beta m ≤ npNodes b d m := by
  intro d
  induction d with
  | zero => intro b alpha beta m; exact le_rfl
  | succ d ih =>
    intro b alpha beta m
    by_cases ht : terminal b = true
    · rw [abNodes_term b d alpha beta m ht, npNodes_term b d m ht]
    · rw [Bool.not_eq_true] at ht
      cases m with
      | true =>
        rw [abNodes_max b d alpha beta ht, npNodes_max b d ht]
        exact Nat.add_le_add_left
          (abNodesFoldMax_le _ _ _ beta (fun c a => ih c a beta false) _ _ _) 1
      | false =>
        rw [abNodes_min b d alpha beta ht, npNodes_min b d ht]
        exact Nat.add_le_add_left
          (abNodesFoldMin_le _ _ _ alpha (fun c be => ih c alpha be true) _ _ _) 1

theorem abSkipsFoldMax_strict (f : Board → F → F) (g : Board → F → Nat)
    (gs : Board → F → Bool) (h : Board → Nat) (beta : F)
    (hg : ∀ c a, g c a ≤ h c)
    (hgs : ∀ c a, gs c a = true → g c a < h c)
    (hpos : ∀ c, 1 ≤ h c) :
    ∀ (cs : List Board) (value alpha : F),
      abSkipsFoldMax f gs beta cs value alpha = true →
      abNodesFoldMax f g beta cs value alpha < (cs.map h).sum := by
  intro cs
  induction cs with
  | nil =>
    intro value alpha hsk
    simp [abSkipsFoldMax] at hsk
  | cons c cs ih =>
    intro value alpha hsk
    rw [abSkipsFoldMax_cons] at hsk
    rw [abNodesFoldMax_cons, List.map_cons, List.sum_cons]
    by_cases hcut : beta ≤ max alpha (f c alpha)
    · rw [if_pos hcut] at hsk ⊢
      rcases Bool.or_eq_true_iff.mp hsk with hs | hne
      · exact lt_of_lt_of_le (hgs c alpha hs) (Nat.le_add_right _ _)
      · have hsum : 0 < (cs.map h).sum := by
          cases cs with
          | nil => simp [List.isEmpty] at hne
          | cons c2 cs2 =>
            rw [List.map_cons, List.sum_cons]
            exact lt_of_lt_of_le (hpos c2) (Nat.le_add_right _ _)
        exact lt_of_le_of_lt (hg c alpha) (Nat.lt_add_of_pos_right hsum)
    · rw [if_neg hcut] at hsk ⊢
      rcases Bool.or_eq_true_iff.mp hsk with hs | hrec
      · exact add_lt_add_of_lt_of_le (hgs c alpha hs)
          (abNodesFoldMax_le f g h beta hg cs _ _)
      · exact add_lt_add_of_le_of_lt (hg c alpha) (ih _ _ hrec)

theorem abSkipsFoldMin_strict (f : Board → F → F) (g : Board → F → Nat)
    (gs : Board → F → Bool) (h : Board → Nat) (alpha : F)
    (hg : ∀ c be, g c be ≤ h c)
    (hgs : ∀ c be, gs c be = true → g c be < h c)
    (hpos : ∀ c, 1 ≤ h c) :
    ∀ (cs : List Board) (value beta : F),
      abSkipsFoldMin f gs alpha cs value beta = true →
      abNodesFoldMin f g alpha cs value beta < (cs.map h).sum := by
  intro cs
  induction cs with
  | nil =>
    intro value beta hsk
    simp [abSkipsFoldMin] at hsk
  | cons c cs ih =>
    intro value beta hsk
    rw [abSkipsFoldMin_cons] at hsk
    rw [abNodesFoldMin_cons, List.map_cons, List.sum_cons]
    by_cases hcut : min beta (f c beta) ≤ alpha
    · rw [if_pos hcut] at hsk ⊢
      rcases Bool.or_eq_true_iff.mp hsk with hs | hne
      · exact lt_of_lt_of_le (hgs c beta hs) (Nat.le_add_right _ _)
      · have hsum : 0 < (cs.map h).sum := by
          cases cs with
          | nil => simp [List.isEmpty] at hne
          | cons c2 cs2 =>
            rw [List.map_cons, List.sum_cons]
            exact lt_of_lt_of_le (hpos c2) (Nat.le_add_right _ _)
        exact lt_of_le_of_lt (hg c beta) (Nat.lt_add_of_pos_right hsum)
    · rw [if_neg hcut] at hsk ⊢
      rcases Bool.or_eq_true_iff.mp hsk with hs | hrec
      · exact add_lt_add_of_lt_of_le (hgs c beta hs)
          (abNodesFoldMin_le f g h alpha hg cs _ _)
      · exact add_lt_add_of_le_of_lt (hg c beta) (ih _ _ hrec)

/-- When some break of the pruned walk skips an unvisited child, the pruned
node count is strictly smaller. -/
theorem abSkips_strict : ∀ (d : Nat) (b : Board) (alpha beta : F) (m : Bool),
    abSkips b d alpha beta m = true → abNodes b d alpha beta m < npNodes b d m := by
  intro d
  induction d with
  | zero =>
    intro b alpha beta m hsk
    simp [abSkips] at hsk
  | succ d ih =>
    intro b alpha beta m hsk
    by_cases ht : terminal b = true
    · rw [abSkips_term b d alpha beta m ht] at hsk
      exact absurd hsk (by simp)
    · rw [Bool.not_eq_true] at ht
      cases m with
      | true =>
        rw [abSkips_max b d alpha beta ht] at hsk
        rw [abNodes_max b d alpha beta ht, npNodes_max b d ht]
        exact Nat.add_lt_add_left
          (abSkipsFoldMax_strict _ _ _ _ beta
            (fun c a => abNodes_le_npNodes d c a beta false)
            (fun c a hs => ih c a beta false hs)
            (fun c => one_le_npNodes d c false) _ _ _ hsk) 1
      | false =>
        rw [abSkips_min b d alpha beta ht] at hsk
        rw [abNodes_min b d alpha beta ht, npNodes_min b d ht]
        exact Nat.add_lt_add_left
          (abSkipsFoldMin_strict _ _ _ _ alpha
            (fun c be => abNodes_le_npNodes d c alpha be true)
            (fun c be hs => ih c alpha be true hs)
            (fun c => one_le_npNodes d c true) _ _ _ hsk) 1

/-- C2 counterexample: on the board cexC2 at depth 2 the full-window pruned
search does trigger the beta <= alpha break (abCuts is true), yet it visits
exactly as many nodes as the unpruned search: every break fires on the last
child of its loop, so nothing is skipped. -/
theorem c2_counterexample :
    abCuts cexC2 2 F.negInf F.posInf true = true ∧
    abNodes cexC2 2 F.negInf F.posInf true = npNodes cexC2 2 true := by
  decide

/-- C2 amended: on the full window the pruned node count is at most the
unpruned one for every board, depth and maximizing flag, and strictly smaller
whenever some break skips at least one unvisited successor. -/
theorem c2_node_counts (b : Board) (d : Nat) (m : Bool) :
    abNodes b d F.negInf F.posInf m ≤ npNodes b d m ∧
    (abSkips b d F.negInf F.posInf m = true →
      abNodes b d F.negInf F.posInf m < npNodes b d m) :=
  ⟨abNodes_le_npNodes d b F.negInf F.posInf m,
   fun hsk => abSkips_strict d b F.negInf F.posInf m hsk⟩

/-- C2 witness: on witC2 at depth 2 a break skips a child and the pruned
count is strictly smaller. -/
theorem c2_witness :
    abNodes witC2 2 F.negInf F.posInf true < npNodes witC2 2 true :=
  (c2_node_counts witC2 2 true).2 (by decide)

/-!
Finiteness of the pruned search value and the basic shape lemmas for
minimax_with_col, used by the tie-breaking and legality claims (C4, C8).
-/

theorem negInf_lt_of_ne {x : F} (h : x ≠ F.negInf) : F.negInf < x :=
  lt_of_le_of_ne (F.negInf_le x) (Ne.symm h)

theorem lt_posInf_of_ne {x : F} (h : x ≠ F.posInf) : x < F.posInf :=
  lt_of_le_of_ne (F.le_posInf x) h

theorem abFoldMax_isVal (f : Board → F → F) (beta : F)
    (hf : ∀ c a, F.IsVal (f c a)) :
    ∀ (cs : List Board) (value alpha : F),
      (F.IsVal value ∨ (value = F.negInf ∧ cs ≠ [])) →
      F.IsVal (abFoldMax f beta cs value alpha) := by
  intro cs
  induction cs with
  | nil =>
    rintro value alpha (hx | ⟨_, hne⟩)
    · exact hx
    · exact absurd rfl hne
  | cons c cs ih =>
    intro value alpha hx
    rw [abFoldMax_cons]
    have hval' : F.IsVal (max value (f c alpha)) := by
      rcases hx with hx | ⟨rfl, _⟩
      · exact F.isVal_max hx (hf c alpha)
      · rw [max_eq_right (F.negInf_le _)]
        exact hf c alpha
    by_cases hcut : beta ≤ max alpha (f c alpha)
    · rw [if_pos hcut]; exact hval'
    · rw [if_neg hcut]; exact ih _ _ (Or.inl hval')

theorem abFoldMin_isVal (f : Board → F → F) (alpha : F)
    (hf : ∀ c be, F.IsVal (f c be)) :
    ∀ (cs : List Board) (value beta : F),
      (F.IsVal value ∨ (value = F.posInf ∧ cs ≠ [])) →
      F.IsVal (abFoldMin f alpha cs value beta) := by
  intro cs
  induction cs with
  | nil =>
    rintro value beta (hx | ⟨_, hne⟩)
    · exact hx
    · exact absurd rfl hne
  | cons c cs ih =>
    intro value beta hx
    rw [abFoldMin_cons]
    have hval' : F.IsVal (min value (f c beta)) := by
      rcases hx with hx | ⟨rfl, _⟩
      · exact F.isVal_min hx (hf c beta)
      · rw [min_eq_right (F.le_posInf _)]
        exact hf c beta
    by_cases hcut : min beta (f c beta) ≤ alpha
    · rw [if_pos hcut]; exact hval'
    · rw [if_neg hcut]; exact ih _ _ (Or.inl hval')

/-- The pruned search value is always a finite integer, on any window. -/
theorem ab_isVal : ∀ (d : Nat) (b : Board) (alpha beta : F) (m : Bool),
    F.IsVal (minimax_ab b d alpha beta m) := by
  intro d
  induction d with
  | zero => intro b alpha beta m; exact trivial
  | succ d ih =>
    intro b alpha beta m
    by_cases ht : terminal b = true
    · rw [minimax_ab_term b d alpha beta m ht]; exact trivial
    · rw [Bool.not_eq_true] at ht
      cases m with
      | true =>
        rw [minimax_ab_max b d alpha beta ht]
        exact abFoldMax_isVal _ _ (fun c a => ih c a beta false) _ _ _
          (Or.inr ⟨rfl, get_children_ne_nil b 1 ht⟩)
      | false =>
        rw [minimax_ab_min b d alpha beta ht]
        exact abFoldMin_isVal _ _ (fun c be => ih c alpha be true) _ _ _
          (Or.inr ⟨rfl, get_children_ne_nil b 2 ht⟩)

theorem minimax_with_col_succ (b : Board) (d : Nat) (alpha beta : F) (m : Bool)
    (ai : Nat) :
    minimax_with_col b (d + 1) alpha beta m ai =
      if terminal b then (none, F.val (heuristic b ai))
      else if m then
        mwcLoopMax (fun c a => (minimax_with_col c d a beta false ai).2) b ai beta
          (valid_cols b) (valid_cols b).head? F.negInf alpha
      else
        mwcLoopMin (fun c be => (minimax_with_col c d alpha be true ai).2) b
          (if ai = 2 then 1 else 2) alpha
          (valid_cols b) (valid_cols b).head? F.posInf beta := rfl

theorem mwc_term (b : Board) (d : Nat) (alpha beta : F) (m : Bool) (ai : Nat)
    (ht : terminal b = true) :
    minimax_with_col b (d + 1) alpha beta m ai = (none, F.val (heuristic b ai)) := by
  rw [minimax_with_col_succ, if_pos ht]

theorem mwc_max (b : Board) (d : Nat) (alpha beta : F) (ai : Nat)
    (ht : terminal b = false) :
    minimax_with_col b (d + 1) alpha beta true ai =
      mwcLoopMax (fun c a => (minimax_with_col c d a beta false ai).2) b ai beta
        (valid_cols b) (valid_cols b).head? F.negInf alpha := by
  rw [minimax_with_col_succ, ht]
  simp

theorem mwc_min (b : Board) (d : Nat) (alpha beta : F) (ai : Nat)
    (ht : terminal b = false) :
    minimax_with_col b (d + 1) alpha beta false ai =
      mwcLoopMin (fun c be => (minimax_with_col c d alpha be true ai).2) b
        (if ai = 2 then 1 else 2) alpha
        (valid_cols b) (valid_cols b).head? F.posInf beta := by
  rw [minimax_with_col_succ, ht]
  simp

theorem mwcLoopMax_cons (f : Board → F → F) (b : Board) (ai : Nat) (beta : F)
    (col : Nat) (cols : List Nat) (best : Option Nat) (value alpha : F) :
    mwcLoopMax f b ai beta (col :: cols) best value alpha =
      if beta ≤ max alpha (max value (f (childAt b col ai) alpha)) then
        (if value < f (childAt b col ai) alpha then some col else best,
          max value (f (childAt b col ai) alpha))
      else
        mwcLoopMax f b ai beta cols
          (if value < f (childAt b col ai) alpha then some col else best)
          (max value (f (childAt b col ai) alpha))
          (max alpha (max value (f (childAt b col ai) alpha))) := by
  simp only [mwcLoopMax, ite_lt_max]

theorem mwcLoopMin_cons (f : Board → F → F) (b : Board) (opp : Nat) (alpha : F)
    (col : Nat) (cols : List Nat) (best : Option Nat) (value beta : F) :
    mwcLoopMin f b opp alpha (col :: cols) best value beta =
      if min beta (min value (f (childAt b col opp) beta)) ≤ alpha then
        (if f (childAt b col opp) beta < value then some col else best,
          min value (f (childAt b col opp) beta))
      else
        mwcLoopMin f b opp alpha cols
          (if f (childAt b col opp) beta < value then some col else best)
          (min value (f (childAt b col opp) beta))
          (min beta (min value (f (childAt b col opp) beta))) := by
  simp only [mwcLoopMin, ite_lt_min]

theorem mwcLoopMax_snd_isVal (f : Board → F → F) (b : Board) (ai : Nat) (beta : F)
    (hf : ∀ c a, F.IsVal (f c a)) :
    ∀ (cols : List Nat) (best : Option Nat) (value alpha : F),
      (F.IsVal value ∨ (value = F.negInf ∧ cols ≠ [])) →
      F.IsVal (mwcLoopMax f b ai beta cols best value alpha).2 := by
  intro cols
  induction cols with
  | nil =>
    rintro best value alpha (hx | ⟨_, hne⟩)
    · exact hx
    · exact absurd rfl hne
  | cons col cols ih =>
    intro best value alpha hx
    rw [mwcLoopMax_cons]
    have hval' : F.IsVal (max value (f (childAt b col ai) alpha)) := by
      rcases hx with hx | ⟨rfl, _⟩
      · exact F.isVal_max hx (hf _ alpha)
      · rw [max_eq_right (F.negInf_le _)]
        exact hf _ alpha
    by_cases hcut : beta ≤ max alpha (max value (f (childAt b col ai) alpha))
    · rw [if_pos hcut]; exact hval'
    · rw [if_neg hcut]; exact ih _ _ _ (Or.inl hval')

theorem mwcLoopMin_snd_isVal (f : Board → F → F) (b : Board) (opp : Nat) (alpha : F)
    (hf : ∀ c be, F.IsVal (f c be)) :
    ∀ (cols : List Nat) (best : Option Nat) (value beta : F),
      (F.IsVal value ∨ (value = F.posInf ∧ cols ≠ [])) →
      F.IsVal (mwcLoopMin f b opp alpha cols best value beta).2 := by
  intro cols
  induction cols with
  | nil =>
    rintro best value beta (hx | ⟨_, hne⟩)
    · exact hx
    · exact absurd rfl hne
  | cons col cols ih =>
    intro best value beta hx
    rw [mwcLoopMin_cons]
    have hval' : F.IsVal (min value (f (childAt b col opp) beta)) := by
      rcases hx with hx | ⟨rfl, _⟩
      · exact F.isVal_min hx (hf _ beta)
      · rw [min_eq_right (F.le_posInf _)]
        exact hf _ beta
    by_cases hcut : min beta (min value (f (childAt b col opp) beta)) ≤ alpha
    · rw [if_pos hcut]; exact hval'
    · rw [if_neg hcut]; exact ih _ _ _ (Or.inl hval')

/-- The score component of minimax_with_col is always a finite integer. -/
theorem mwc_snd_isVal : ∀ (d : Nat) (b : Board) (alpha beta : F) (m : Bool) (ai : Nat),
    F.IsVal (minimax_with_col b d alpha beta m ai).2 := by
  intro d
  induction d with
  | zero => intro b alpha beta m ai; exact trivial
  | succ d ih =>
    intro b alpha beta m ai
    by_cases ht : terminal b = true
    · rw [mwc_term b d alpha beta m ai ht]; exact trivial
    · rw [Bool.not_eq_true] at ht
      cases m with
      | true =>
        rw [mwc_max b d alpha beta ai ht]
        exact mwcLoopMax_snd_isVal _ _ _ _ (fun c a => ih c a beta false ai) _ _ _ _
          (Or.inr ⟨rfl, valid_cols_ne_nil b ht⟩)
      | false =>
        rw [mwc_min b d alpha beta ai ht]
        exact mwcLoopMin_snd_isVal _ _ _ _ (fun c be => ih c alpha be true ai) _ _ _ _
          (Or.inr ⟨rfl, valid_cols_ne_nil b ht⟩)

theorem mwcLoopMax_fst (f : Board → F → F) (b : Board) (ai : Nat) (beta : F) :
    ∀ (cols : List Nat) (best : Option Nat) (value alpha : F),
      (mwcLoopMax f b ai beta cols best value alpha).1 = best ∨
      ∃ c ∈ cols, (mwcLoopMax f b ai beta cols best value alpha).1 = some c := by
  intro cols
  induction cols with
  | nil => intro best value alpha; exact Or.inl rfl
  | cons col cols ih =>
    intro best value alpha
    rw [mwcLoopMax_cons]
    by_cases hcut : beta ≤ max alpha (max value (f (childAt b col ai) alpha))
    · rw [if_pos hcut]
      by_cases hup : value < f (childAt b col ai) alpha
      · exact Or.inr ⟨col, List.mem_cons_self col cols, by rw [if_pos hup]⟩
      · exact Or.inl (by rw [if_neg hup])
    · rw [if_neg hcut]
      by_cases hup : value < f (childAt b col ai) alpha
      · rw [if_pos hup]
        rcases ih (some col) _ _ with h | ⟨c, hc, h⟩
        · exact Or.inr ⟨col, List.mem_cons_self col cols, h⟩
        · exact Or.inr ⟨c, List.mem_cons_of_mem col hc, h⟩
      · rw [if_neg hup]
        rcases ih best _ _ with h | ⟨c, hc, h⟩
        · exact Or.inl h
        · exact Or.inr ⟨c, List.mem_cons_of_mem col hc, h⟩

theorem mwcLoopMin_fst (f : Board → F → F) (b : Board) (opp : Nat) (alpha : F) :
    ∀ (cols : List Nat) (best : Option Nat) (value beta : F),
      (mwcLoopMin f b opp alpha cols best value beta).1 = best ∨
      ∃ c ∈ cols, (mwcLoopMin f b opp alpha cols best value beta).1 = some c := by
  intro cols
  induction cols with
  | nil => intro best value beta; exact Or.inl rfl
  | cons col cols ih =>
    intro best value beta
    rw [mwcLoopMin_cons]
    by_cases hcut : min beta (min value (f (childAt b col opp) beta)) ≤ alpha
    · rw [if_pos hcut]
      by_cases hup : f (childAt b col opp) beta < value
      · exact Or.inr ⟨col, List.mem_cons_self col cols, by rw [if_pos hup]⟩
      · exact Or.inl (by rw [if_neg hup])
    · rw [if_neg hcut]
      by_cases hup : f (childAt b col opp) beta < value
      · rw [if_pos hup]
        rcases ih (some col) _ _ with h | ⟨c, hc, h⟩
        · exact Or.inr ⟨col, List.mem_cons_self col cols, h⟩
        · exact Or.inr ⟨c, List.mem_cons_of_mem col hc, h⟩
      · rw [if_neg hup]
        rcases ih best _ _ with h | ⟨c, hc, h⟩
        · exact Or.inl h
        · exact Or.inr ⟨c, List.mem_cons_of_mem col hc, h⟩

/-!
The play_game_vs_ai root loop (C4, C8): it scans columns in ascending order,
keeps only legal ones, and updates the chosen column on a strictly greater
score only.
-/

theorem aiLoop_cons (b : Board) (depth c : Nat) (cs : List Nat)
    (best : Option Nat) (bs : F) :
    aiLoop b depth (c :: cs) best bs =
      if is_valid_location b c then
        if bs < rootScore b depth c then
          aiLoop b depth cs (some c) (rootScore b depth c)
        else aiLoop b depth cs best bs
      else aiLoop b depth cs best bs := rfl

theorem aiLoop_spec (b : Board) (depth : Nat) :
    ∀ (cs : List Nat), List.Pairwise (· < ·) cs → ∀ (best : Option Nat) (bs : F),
      bs ≤ (aiLoop b depth cs best bs).2 ∧
      (((aiLoop b depth cs best bs).1 = best ∧ (aiLoop b depth cs best bs).2 = bs) ∨
        (∃ c, (aiLoop b depth cs best bs).1 = some c ∧ c ∈ cs ∧
          is_valid_location b c = true ∧
          rootScore b depth c = (aiLoop b depth cs best bs).2 ∧
          bs < (aiLoop b depth cs best bs).2 ∧
          ∀ c2 ∈ cs, c2 < c → is_valid_location b c2 = true →
            rootScore b depth c2 < (aiLoop b depth cs best bs).2)) ∧
      (∀ c2 ∈ cs, is_valid_location b c2 = true →
        rootScore b depth c2 ≤ (aiLoop b depth cs best bs).2) := by
  intro cs
  induction cs with
  | nil =>
    intro _ best bs
    refine ⟨le_rfl, Or.inl ⟨rfl, rfl⟩, ?_⟩
    intro c2 h
    exact absurd h (List.not_mem_nil c2)
  | cons c cs ih =>
    intro hp best bs
    obtain ⟨hhead, hptail⟩ := List.pairwise_cons.mp hp
    rw [aiLoop_cons]
    by_cases hv : is_valid_location b c = true
    · rw [if_pos hv]
      by_cases hup : bs < rootScore b depth c
      · rw [if_pos hup]
        obtain ⟨ih1, ih2, ih3⟩ := ih hptail (some c) (rootScore b depth c)
        refine ⟨le_trans hup.le ih1, ?_, ?_⟩
        · rcases ih2 with ⟨he1, he2⟩ | ⟨c', he1, hmem, hval', heq, hlt', hearlier⟩
          · refine Or.inr ⟨c, he1, List.mem_cons_self c cs, hv, he2.symm,
              (by rw [he2]; exact hup), ?_⟩
            intro c2 hmem2 hlt2 _
            rcases List.mem_cons.mp hmem2 with rfl | hmem2
            · exact absurd hlt2 (lt_irrefl c2)
            · exact absurd hlt2 (not_lt.mpr (hhead c2 hmem2).le)
          · refine Or.inr ⟨c', he1, List.mem_cons_of_mem c hmem, hval', heq,
              lt_trans hup hlt', ?_⟩
            intro c2 hmem2 hlt2 hv2
            rcases List.mem_cons.mp hmem2 with rfl | hmem2
            · exact hlt'
            · exact hearlier c2 hmem2 hlt2 hv2
        · intro c2 hmem2 hv2
          rcases List.mem_cons.mp hmem2 with rfl | hmem2
          · exact ih1
          · exact ih3 c2 hmem2 hv2
      · rw [if_neg hup]
        have hle : rootScore b depth c ≤ bs := not_lt.mp hup
        obtain ⟨ih1, ih2, ih3⟩ := ih hptail best bs
        refine ⟨ih1, ?_, ?_⟩
        · rcases ih2 with h | ⟨c', he1, hmem, hval', heq, hlt', hearlier⟩
          · exact Or.inl h
          · refine Or.inr ⟨c', he1, List.mem_cons_of_mem c hmem, hval', heq, hlt', ?_⟩
            intro c2 hmem2 hlt2 hv2
            rcases List.mem_cons.mp hmem2 with rfl | hmem2
            · exact lt_of_le_of_lt hle hlt'
            · exact hearlier c2 hmem2 hlt2 hv2
        · intro c2 hmem2 hv2
          rcases List.mem_cons.mp hmem2 with rfl | hmem2
          · exact le_trans hle ih1
          · exact ih3 c2 hmem2 hv2
    · rw [if_neg hv]
      obtain ⟨ih1, ih2, ih3⟩ := ih hptail best bs
      refine ⟨ih1, ?_, ?_⟩
      · rcases ih2 with h | ⟨c', he1, hmem, hval', heq, hlt', hearlier⟩
        · exact Or.inl h
        · refine Or.inr ⟨c', he1, List.mem_cons_of_mem c hmem, hval', heq, hlt', ?_⟩
          intro c2 hmem2 hlt2 hv2
          rcases List.mem_cons.mp hmem2 with rfl | hmem2
          · exact absurd hv2 hv
          · exact hearlier c2 hmem2 hlt2 hv2
      · intro c2 hmem2 hv2
        rcases List.mem_cons.mp hmem2 with rfl | hmem2
        · exact absurd hv2 hv
        · exact ih3 c2 hmem2 hv2

theorem mwcRootTrace_cons (b : Board) (d ai col : Nat) (cols : List Nat) (alpha : F) :
    mwcRootTrace b d ai (col :: cols) alpha =
      (col, (minimax_with_col (childAt b col ai) d alpha F.posInf false ai).2) ::
        mwcRootTrace b d ai cols
          (max alpha (minimax_with_col (childAt b col ai) d alpha F.posInf false ai).2) :=
  rfl

theorem mwcRootTrace_fst_mem (b : Board) (d ai : Nat) :
    ∀ (cols : List Nat) (alpha : F) (p : Nat × F),
      p ∈ mwcRootTrace b d ai cols alpha → p.1 ∈ cols := by
  intro cols
  induction cols with
  | nil =>
    intro alpha p h
    exact absurd h (List.not_mem_nil p)
  | cons col cols ih =>
    intro alpha p h
    rw [mwcRootTrace_cons] at h
    rcases List.mem_cons.mp h with h | h
    · rw [h]
      exact List.mem_cons_self col cols
    · exact List.mem_cons_of_mem col (ih _ p h)

theorem mwcLoopMax_root_cons (b : Board) (d ai col : Nat) (cols : List Nat)
    (best : Option Nat) (value alpha : F) :
    mwcLoopMax (fun c a => (minimax_with_col c d a F.posInf false ai).2) b ai F.posInf
        (col :: cols) best value alpha =
      if F.posInf ≤ max alpha (max value
          (minimax_with_col (childAt b col ai) d alpha F.posInf false ai).2) then
        (if value < (minimax_with_col (childAt b col ai) d alpha F.posInf false ai).2
          then some col else best,
         max value (minimax_with_col (childAt b col ai) d alpha F.posInf false ai).2)
      else
        mwcLoopMax (fun c a => (minimax_with_col c d a F.posInf false ai).2) b ai
          F.posInf cols
          (if value < (minimax_with_col (childAt b col ai) d alpha F.posInf false ai).2
            then some col else best)
          (max value (minimax_with_col (childAt b col ai) d alpha F.posInf false ai).2)
          (max alpha (max value
            (minimax_with_col (childAt b col ai) d alpha F.posInf false ai).2)) := by
  simp only [mwcLoopMax, ite_lt_max]

theorem mwcLoopMax_root_spec (b : Board) (d ai : Nat) :
    ∀ (cols : List Nat), List.Pairwise (· < ·) cols →
      ∀ (best : Option Nat) (value : F), (F.IsVal value ∨ value = F.negInf) →
      value ≤ (mwcLoopMax (fun c a => (minimax_with_col c d a F.posInf false ai).2)
          b ai F.posInf cols best value value).2 ∧
      (((mwcLoopMax (fun c a => (minimax_with_col c d a F.posInf false ai).2)
            b ai F.posInf cols best value value).1 = best ∧
        (mwcLoopMax (fun c a => (minimax_with_col c d a F.posInf false ai).2)
            b ai F.posInf cols best value value).2 = value) ∨
        (∃ c, (mwcLoopMax (fun c a => (minimax_with_col c d a F.posInf false ai).2)
            b ai F.posInf cols best value value).1 = some c ∧ c ∈ cols ∧
          (c, (mwcLoopMax (fun c a => (minimax_with_col c d a F.posInf false ai).2)
            b ai F.posInf cols best value value).2) ∈ mwcRootTrace b d ai cols value ∧
          value < (mwcLoopMax (fun c a => (minimax_with_col c d a F.posInf false ai).2)
            b ai F.posInf cols best value value).2 ∧
          ∀ p ∈ mwcRootTrace b d ai cols value, p.1 < c →
            p.2 < (mwcLoopMax (fun c a => (minimax_with_col c d a F.posInf false ai).2)
              b ai F.posInf cols best value value).2)) ∧
      (∀ p ∈ mwcRootTrace b d ai cols value,
        p.2 ≤ (mwcLoopMax (fun c a => (minimax_with_col c d a F.posInf false ai).2)
          b ai F.posInf cols best value value).2) := by
  intro cols
  induction cols with
  | nil =>
    intro _ best value _
    refine ⟨le_rfl, Or.inl ⟨rfl, rfl⟩, ?_⟩
    intro p h
    exact absurd h (List.not_mem_nil p)
  | cons col cols ih =>
    intro hp best value hx
    obtain ⟨hhead, hptail⟩ := List.pairwise_cons.mp hp
    rw [mwcLoopMax_root_cons, mwcRootTrace_cons]
    have hscore : F.IsVal (minimax_with_col (childAt b col ai) d value F.posInf false ai).2 :=
      mwc_snd_isVal d _ _ _ _ _
    set s0 := (minimax_with_col (childAt b col ai) d value F.posInf false ai).2 with hs0
    have hval' : F.IsVal (max value s0) := by
      rcases hx with hx | hx
      · exact F.isVal_max hx hscore
      · rw [hx, max_eq_right (F.negInf_le _)]
        exact hscore
    have hvv : max value (max value s0) = max value s0 := by
      rw [← max_assoc, max_self]
    have hcut : ¬ (F.posInf ≤ max value (max value s0)) := by
      rw [hvv]
      exact F.not_posInf_le_of_isVal hval'
    rw [if_neg hcut, hvv]
    by_cases hup : value < s0
    · rw [if_pos hup]
      have hvs : max value s0 = s0 := max_eq_right hup.le
      rw [hvs]
      obtain ⟨ih1, ih2, ih3⟩ := ih hptail (some col) s0 (Or.inl hscore)
      refine ⟨le_trans hup.le ih1, ?_, ?_⟩
      · rcases ih2 with ⟨he1, he2⟩ | ⟨c', he1, hmem, htr, hlt', hearlier⟩
        · refine Or.inr ⟨col, he1, List.mem_cons_self col cols, ?_,
            (by rw [he2]; exact hup), ?_⟩
          · rw [he2]
            exact List.mem_cons_self _ _
          · intro p hmem2 hlt2
            rcases List.mem_cons.mp hmem2 with rfl | hmem2
            · exact absurd hlt2 (lt_irrefl col)
            · exact absurd hlt2
                (not_lt.mpr (hhead p.1 (mwcRootTrace_fst_mem b d ai cols s0 p hmem2)).le)
        · refine Or.inr ⟨c', he1, List.mem_cons_of_mem col hmem,
            List.mem_cons_of_mem _ htr, lt_trans hup hlt', ?_⟩
          intro p hmem2 hlt2
          rcases List.mem_cons.mp hmem2 with rfl | hmem2
          · exact hlt'
          · exact hearlier p hmem2 hlt2
      · intro p hmem2
        rcases List.mem_cons.mp hmem2 with rfl | hmem2
        · exact ih1
        · exact ih3 p hmem2
    · rw [if_neg hup]
      have hle : s0 ≤ value := not_lt.mp hup
      have hvs : max value s0 = value := max_eq_left hle
      rw [hvs]
      obtain ⟨ih1, ih2, ih3⟩ := ih hptail best value hx
      refine ⟨ih1, ?_, ?_⟩
      · rcases ih2 with h | ⟨c', he1, hmem, htr, hlt', hearlier⟩
        · exact Or.inl h
        · refine Or.inr ⟨c', he1, List.mem_cons_of_mem col hmem,
            List.mem_cons_of_mem _ htr, hlt', ?_⟩
          intro p hmem2 hlt2
          rcases List.mem_cons.mp hmem2 with rfl | hmem2
          · exact lt_of_le_of_lt hle hlt'
          · exact hearlier p hmem2 hlt2
      · intro p hmem2
        rcases List.mem_cons.mp hmem2 with rfl | hmem2
        · exact le_trans hle ih1
        · exact ih3 p hmem2

theorem is_valid_lt (b : Board) (c : Nat) (h : is_valid_location b c = true) :
    c < COLS := by
  unfold is_valid_location at h
  simp only [Bool.and_eq_true, decide_eq_true_eq] at h
  exact h.1

theorem pairwise_valid_cols (b : Board) : List.Pairwise (· < ·) (valid_cols b) :=
  (List.pairwise_lt_range _).sublist (List.filter_sublist _)

/-- C4: first-seen-wins tie-breaking.  The play_game_vs_ai root loop returns
the least legal column attaining the maximal root score, and the root call of
minimax_with_col returns the least column attaining the maximum of the score
sequence it computes (each score produced with the alpha accumulated from the
columns before it, recorded by mwcRootTrace). -/
theorem c4_tie_break_lowest (b : Board) (depth : Nat) :
    (∀ c, ai_move b depth = some c →
      is_valid_location b c = true ∧
      ∀ c2, is_valid_location b c2 = true →
        rootScore b depth c2 ≤ rootScore b depth c ∧
        (c2 < c → rootScore b depth c2 < rootScore b depth c)) ∧
    (∀ (d ai c : Nat) (v : F), terminal b = false →
      minimax_with_col b (d + 1) F.negInf F.posInf true ai = (some c, v) →
      (c, v) ∈ mwcRootTrace b d ai (valid_cols b) F.negInf ∧
      ∀ p ∈ mwcRootTrace b d ai (valid_cols b) F.negInf,
        p.2 ≤ v ∧ (p.1 < c → p.2 < v)) := by
  constructor
  · intro c hc
    obtain ⟨h1, h2, h3⟩ :=
      aiLoop_spec b depth (List.range COLS) (List.pairwise_lt_range _) none F.negInf
    rw [ai_move] at hc
    rcases h2 with ⟨he1, _⟩ | ⟨c', he1, hmem, hval', heq, _, hearlier⟩
    · rw [he1] at hc
      exact Option.noConfusion hc
    · have hcc : c' = c := by
        rw [he1] at hc
        exact Option.some.inj hc
      subst hcc
      refine ⟨hval', ?_⟩
      intro c2 hv2
      have hc2mem : c2 ∈ List.range COLS := List.mem_range.mpr (is_valid_lt b c2 hv2)
      constructor
      · have := h3 c2 hc2mem hv2
        rwa [← heq] at this
      · intro hlt2
        have := hearlier c2 hc2mem hlt2 hv2
        rwa [← heq] at this
  · intro d ai c v ht h
    rw [mwc_max b d F.negInf F.posInf ai ht] at h
    obtain ⟨h1, h2, h3⟩ := mwcLoopMax_root_spec b d ai (valid_cols b)
      (pairwise_valid_cols b) (valid_cols b).head? F.negInf (Or.inr rfl)
    have hfst := congrArg Prod.fst h
    have hsnd := congrArg Prod.snd h
    rcases h2 with ⟨he1, he2⟩ | ⟨c', he1, hmem, htr, _, hearlier⟩
    · exfalso
      obtain ⟨col, cols', hval⟩ := List.exists_cons_of_ne_nil (valid_cols_ne_nil b ht)
      have hscore := mwc_snd_isVal d (childAt b col ai) F.negInf F.posInf false ai
      have hhead_mem : (col,
          (minimax_with_col (childAt b col ai) d F.negInf F.posInf false ai).2) ∈
          mwcRootTrace b d ai (valid_cols b) F.negInf := by
        rw [hval, mwcRootTrace_cons]
        exact List.mem_cons_self _ _
      have hle := h3 _ hhead_mem
      rw [he2] at hle
      exact F.not_le_negInf_of_isVal hscore hle
    · have hcc : c' = c := by
        rw [he1] at hfst
        exact Option.some.inj hfst
      subst hcc
      rw [hsnd] at htr
      refine ⟨htr, ?_⟩
      intro p hp
      constructor
      · have := h3 p hp
        rwa [hsnd] at this
      · intro hplt
        have := hearlier p hp hplt
        rwa [hsnd] at this

/-- C4 witness: on the empty board at depth 1, column 0 is the selected
column and the center column scores no better. -/
theorem c4_witness :
    is_valid_location create_board 0 = true ∧
    rootScore create_board 1 3 ≤ rootScore create_board 1 0 :=
  have h := (c4_tie_break_lowest create_board 1).1 0 (by decide)
  ⟨h.1, (h.2 3 (by decide)).1⟩

/-- C8: whenever the board has a legal column and the depth is at least 1,
the play_game_vs_ai root loop returns some column and that column is legal;
and any column minimax_with_col returns (for any window, flag and depth) is
legal on the board. -/
theorem c8_returns_legal_column (b : Board) (depth : Nat)
    (hex : ∃ c, is_valid_location b c = true) (_hd : 1 ≤ depth) :
    (∃ c, ai_move b depth = some c ∧ is_valid_location b c = true) ∧
    (∀ (d : Nat) (alpha beta : F) (m : Bool) (ai c : Nat) (v : F),
      minimax_with_col b d alpha beta m ai = (some c, v) →
      is_valid_location b c = true) := by
  constructor
  · obtain ⟨c0, hc0⟩ := hex
    obtain ⟨h1, h2, h3⟩ :=
      aiLoop_spec b depth (List.range COLS) (List.pairwise_lt_range _) none F.negInf
    rcases h2 with ⟨he1, he2⟩ | ⟨c', he1, _, hval', _, _, _⟩
    · exfalso
      have hmem0 : c0 ∈ List.range COLS := List.mem_range.mpr (is_valid_lt b c0 hc0)
      have hle := h3 c0 hmem0 hc0
      rw [he2] at hle
      exact F.not_le_negInf_of_isVal
        (ab_isVal (depth - 1) (childAt b c0 1) F.negInf F.posInf false) hle
    · exact ⟨c', he1, hval'⟩
  · intro d alpha beta m ai c v h
    cases d with
    | zero => exact Option.noConfusion (congrArg Prod.fst h)
    | succ d =>
      by_cases ht : terminal b = true
      · rw [mwc_term b d alpha beta m ai ht] at h
        exact Option.noConfusion (congrArg Prod.fst h)
      · rw [Bool.not_eq_true] at ht
        cases m with
        | true =>
          rw [mwc_max b d alpha beta ai ht] at h
          have hfst := congrArg Prod.fst h
          rcases mwcLoopMax_fst _ b ai beta (valid_cols b) (valid_cols b).head?
              F.negInf alpha with hh | ⟨c2, hc2, hh⟩
          · rw [hh] at hfst
            cases hval : valid_cols b with
            | nil =>
              rw [hval] at hfst
              exact Option.noConfusion hfst
            | cons col cols =>
              rw [hval] at hfst
              have hcmem : c ∈ valid_cols b := by
                rw [hval, ← Option.some.inj hfst]
                exact List.mem_cons_self col cols
              exact (List.mem_filter.mp hcmem).2
          · rw [hh] at hfst
            have hcc : c2 = c := Option.some.inj hfst
            subst hcc
            exact (List.mem_filter.mp hc2).2
        | false =>
          rw [mwc_min b d alpha beta ai ht] at h
          have hfst := congrArg Prod.fst h
          rcases mwcLoopMin_fst _ b (if ai = 2 then 1 else 2) alpha (valid_cols b)
              (valid_cols b).head? F.posInf beta with hh | ⟨c2, hc2, hh⟩
          · rw [hh] at hfst
            cases hval : valid_cols b with
            | nil =>
              rw [hval] at hfst
              exact Option.noConfusion hfst
            | cons col cols =>
              rw [hval] at hfst
              have hcmem : c ∈ valid_cols b := by
                rw [hval, ← Option.some.inj hfst]
                exact List.mem_cons_self col cols
              exact (List.mem_filter.mp hcmem).2
          · rw [hh] at hfst
            have hcc : c2 = c := Option.some.inj hfst
            subst hcc
            exact (List.mem_filter.mp hc2).2

/-- C8 witness: on the empty board the root search at depth 1 returns column
0, a legal column. -/
theorem c8_witness : is_valid_location create_board 0 = true :=
  (c8_returns_legal_column create_board 1 ⟨0, by decide⟩ le_rfl).2 1
    F.negInf F.posInf true 1 0 (F.val 0) (by decide)
